import Mathlib

/-
Verification of the poly-multiproof engine (Method-1/Method-2 KZG-style
polynomial multi-open proofs) against its natural-language specification.

Modelling conventions.

Groups and pairing: the source works over a pairing-friendly curve whose
groups G1, G2, GT are cyclic of prime order r (the scalar field order) and
whose pairing is bilinear and non-degenerate.  The curve library is an
external collaborator of the repository, so we embed its algebra: a G1 or
G2 element is represented by its discrete logarithm with respect to the
library's standard generator (an element of the scalar field F), scalar
multiplication is field multiplication, group addition is field addition,
and the pairing of two elements with logarithms u and v is the GT element
with logarithm u * v.  Since the groups have prime order and the pairing
is non-degenerate, this representation is a group isomorphism and equality
of pairings corresponds exactly to equality of the products in F.

Scalars: the scalar field is an arbitrary field F with decidable equality
(instantiated with ZMod p in concrete computations).

Polynomials: coefficient vectors, low degree first, exactly as the source
(arkworks DensePolynomial / Vec<Fr>), as List F.

Transcript: the merlin sponge is an external collaborator; it is embedded
as an arbitrary deterministic state machine with labelled append and
challenge operations.

Randomness: an RngCore is embedded as a stream of field elements with a
position counter; drawing a uniformly random scalar or group element reads
the next stream element (as the scalar, respectively the discrete log of
the group element).

The crate root (lib.rs: gen_powers, linear_combination, poly_div_q_r,
vanishing_polynomial, curve_msm, gen_curve_powers, the transcript helpers,
the lagrange module) and method1/mod.rs are not part of the provided
sources; definitions for them are modelled from the specification and are
marked with a doc comment starting with that phrase.
-/

set_option linter.unusedSectionVars false

namespace PolyMultiProof

/-- Error kinds of the engine, from the specification's error-handling
design (section 7); the constructors carry the same payloads as the Rust
enum. -/
inductive Error where
  | polynomialTooLarge (n_coeffs expected_max : Nat)
  | evalsIncorrectSize (expected got : Nat)
  | noPolynomialsGiven
  | divisorIsZero
  | notEnoughG2Powers
  | noSuchPointSet (k : Nat)
  deriving DecidableEq

deriving instance DecidableEq for Except

variable {F : Type} [Field F] [DecidableEq F]

/-- Horner evaluation of a low-degree-first coefficient vector, the
semantics of DensePolynomial::evaluate. -/
def polyEval (p : List F) (z : F) : F := p.foldr (fun c acc => c + z * acc) 0

/-- Coefficient-wise polynomial addition (the shorter vector is padded
with zeros), as arkworks Add on DensePolynomial. -/
def polyAdd : List F → List F → List F
  | [], q => q
  | p, [] => p
  | c :: p, d :: q => (c + d) :: polyAdd p q

/-- Coefficient-wise negation. -/
def polyNeg (p : List F) : List F := p.map (fun c => -c)

/-- Polynomial subtraction, as arkworks Sub on DensePolynomial. -/
def polySub (p q : List F) : List F := polyAdd p (polyNeg q)

/-- Multiplication of a polynomial by a scalar. -/
def polyScale (c : F) (p : List F) : List F := p.map (fun d => c * d)

/-- Convolution product of coefficient vectors, as arkworks Mul on
DensePolynomial. -/
def polyMul : List F → List F → List F
  | [], _ => []
  | c :: p, q => polyAdd (polyScale c q) (0 :: polyMul p q)

/-- Remove trailing zero coefficients, as arkworks
DensePolynomial::truncate_leading_zeros; used to take degrees and to test
a coefficient vector for being the zero polynomial. -/
def trim : List F → List F
  | [] => []
  | c :: p =>
    match trim p with
    | [] => if c = 0 then [] else [c]
    | q => c :: q

/-- Highest-index coefficient of a vector (0 for the empty vector). -/
def lastCoeff : List F → F
  | [] => 0
  | [c] => c
  | _ :: c :: p => lastCoeff (c :: p)

/-- Euclidean division loop: repeatedly cancel the leading term of the
trimmed dividend against the trimmed divisor.  The fuel argument bounds
the number of cancellation steps; poly_div_q_r supplies enough fuel for
the loop to run to completion. -/
def divModAux : Nat → List F → List F → List F × List F
  | 0, a, _ => ([], trim a)
  | fuel + 1, a, b =>
    let ta := trim a
    let tb := trim b
    if ta.length < tb.length then ([], ta)
    else
      let k := ta.length - tb.length
      let c := lastCoeff ta / lastCoeff tb
      let aNext := polySub ta (List.replicate k 0 ++ polyScale c tb)
      let qr := divModAux fuel aNext b
      (polyAdd qr.1 (List.replicate k 0 ++ [c]), qr.2)

/-- Modelled from the spec: poly_div_q_r (crate root, absent from src/).
Standard Euclidean division over F returning quotient and remainder;
fails with DivisorIsZero when the divisor is the zero polynomial. -/
def poly_div_q_r (a b : List F) : Except Error (List F × List F) :=
  if trim b = [] then .error .divisorIsZero
  else .ok (divModAux (a.length + 1) a b)

/-- Quotient of Euclidean division with the remainder discarded, the
semantics of arkworks Div on DensePolynomial (used by Method-2's open on
the never-zero divisor X - z). -/
def densePolyDiv (a b : List F) : List F := (divModAux (a.length + 1) a b).1

/-- Modelled from the spec: gen_powers (crate root, absent from src/).
Returns the power sequence 1, y, y^2, ..., y^(n-1). -/
def gen_powers (y : F) (n : Nat) : List F := (List.range n).map (fun i => y ^ i)

/-- Modelled from the spec: linear_combination (crate root, absent from
src/).  Defined when there are at most as many polynomials as scalars;
returns None (mapped to NoPolynomialsGiven by the callers) when the
polynomial list is empty; the output length is the maximum input length
and trailing zeros are not trimmed. -/
def linear_combination (polys : List (List F)) (scalars : List F) : Option (List F) :=
  match polys with
  | [] => none
  | _ :: _ => some ((List.zipWith polyScale scalars polys).foldl polyAdd [])

/-- Modelled from the spec: vanishing_polynomial (crate root, absent from
src/).  The monic polynomial whose roots are exactly the given points; for
no points it is the constant 1. -/
def vanishing_polynomial (pts : List F) : List F :=
  pts.foldl (fun acc s => polyMul acc [-s, 1]) [1]

/-- Sum of pairwise products, the value of a multi-scalar multiplication
in discrete-log form (zero scalars contribute nothing, extra points are
ignored, exactly as an MSM over a zip). -/
def dotProd (points scalars : List F) : F :=
  (List.zipWith (fun p s => p * s) points scalars).sum

/-- Modelled from the spec: curve_msm (crate root, absent from src/).
Fails with PolynomialTooLarge when there are more scalars than points
(matching the explicit check in fast_msm::g1_msm). -/
def curve_msm (points scalars : List F) : Except Error F :=
  if points.length < scalars.length then
    .error (.polynomialTooLarge scalars.length points.length)
  else .ok (dotProd points scalars)

/-- Pairing in discrete-log form: the GT exponent of e(u·G1, v·G2) is
u * v. -/
def pairing (u v : F) : F := u * v

/-- Transcript labels used by the engine (section 6 byte layout; the label
strings append_point, append_eval, open W, open gamma, open z). -/
inductive Label where
  | appendPoint
  | appendEval
  | openW
  | openGamma
  | openZ
  deriving DecidableEq

/-- The Fiat-Shamir sponge, an external collaborator: an arbitrary
deterministic state machine with labelled byte-absorbing append and a
challenge operation returning a field element and the successor state. -/
structure Sponge (σ : Type) (F : Type) where
  append : σ → Label → F → σ
  challenge : σ → Label → F × σ

/-- Modelled from the spec: transcribe_points_and_evals (crate root,
absent from src/).  Appends every point in order under append_point, then
every evaluation row in order, entry by entry, under append_eval
(section 6). -/
def transcribe_points_and_evals {σ : Type} (sp : Sponge σ F) (t : σ)
    (points : List F) (evals : List (List F)) : σ :=
  evals.foldl (fun s row => row.foldl (fun s2 e => sp.append s2 .appendEval e) s)
    (points.foldl (fun s q => sp.append s .appendPoint q) t)

/-- Stream-of-scalars model of an RngCore: sampling reads the stream at
the current position and advances it. -/
structure Rng (F : Type) where
  stream : Nat → F
  idx : Nat

/-- Draw the next element from the randomness stream. -/
def Rng.sample (r : Rng F) : F × Rng F := (r.stream r.idx, ⟨r.stream, r.idx + 1⟩)

/-- Discrete logarithm of the external library's standard generator
(of either group): the dlog representation is normalised so that the
standard generator is 1. -/
def standard_generator : F := 1

/-- Modelled from the spec: gen_curve_powers / gen_curve_powers_proj
(crate root, absent from src/).  Consumes randomness (the functions take
the rng) to sample the group generator, and returns that generator scaled
by each of the given secret powers (spec sections 3 and 5: the setup
powers are the powers of x up to the random group generator, and
randomness in Setup::new samples x and the group generators). -/
def gen_curve_powers (x_powers : List F) (rng : Rng F) : List F × Rng F :=
  let g := rng.sample
  (polyScale g.1 x_powers, g.2)

/-- Method-2 setup (src/method2/mod.rs): G1 powers plus the two G2 points
[1]_2 and [x]_2, in discrete-log form. -/
structure M2Setup (F : Type) where
  powers_of_g1 : List F
  g2 : F
  g2x : F
  deriving DecidableEq

/-- Modelled from the spec: the method1::Setup structure (method1/mod.rs
is absent from src/; only its two power vectors are used here, by the
Method-2 TryFrom conversion and as the shape of a Method-1 setup). -/
structure Method1Setup (F : Type) where
  powers_of_g1 : List F
  powers_of_g2 : List F
  deriving DecidableEq

/-- TryFrom<method1::Setup> for method2::Setup (src/method2/mod.rs lines
29-42): requires at least two G2 powers and keeps the G1 powers. -/
def m2TryFrom (v : Method1Setup F) : Except Error (M2Setup F) :=
  if v.powers_of_g2.length < 2 then .error .notEnoughG2Powers
  else .ok ⟨v.powers_of_g1, v.powers_of_g2.getD 0 0, v.powers_of_g2.getD 1 0⟩

/-- Method-2 Setup::new (src/method2/mod.rs lines 48-63): samples the
secret x, builds the G1 powers with gen_curve_powers, samples a fresh
random G2 point g2 and sets g2x to g2 * x. -/
def M2Setup.new (max_degree : Nat) (rng : Rng F) : M2Setup F × Rng F :=
  let num_scalars := max_degree + 1
  let xr := rng.sample
  let x_powers := gen_powers xr.1 num_scalars
  let g1r := gen_curve_powers x_powers xr.2
  let g2r := g1r.2.sample
  (⟨g1r.1, g2r.1, g2r.1 * xr.1⟩, g2r.2)

/-- Method-2 commit (src/method2/mod.rs lines 65-68): MSM of the G1
powers with the coefficients. -/
def m2Commit (s : M2Setup F) (poly : List F) : Except Error F :=
  curve_msm s.powers_of_g1 poly

/-- Method-2 proof: the pair of G1 points (W1, W2). -/
abbrev M2Proof (F : Type) := F × F

/-- Method-2 Setup::open (src/method2/mod.rs lines 70-108).  Appends the
points and evals, draws gamma, combines the polynomials with the gamma
powers (sized to the setup), divides by the vanishing polynomial, commits
the quotient as W1, appends W1 and draws z, builds
L = F - (remainder * Z_S)(z) - Z_S(z) * h, divides L by X - z discarding
the remainder, and commits the quotient as W2.  Returns the proof together
with the final transcript state. -/
def m2Open {σ : Type} (s : M2Setup F) (sp : Sponge σ F) (t0 : σ)
    (evals : List (List F)) (polys : List (List F)) (points : List F) :
    Except Error (M2Proof F × σ) :=
  let t1 := transcribe_points_and_evals sp t0 points evals
  let gz := sp.challenge t1 .openGamma
  let gammas := gen_powers gz.1 s.powers_of_g1.length
  match linear_combination polys gammas with
  | none => .error .noPolynomialsGiven
  | some gamma_fis =>
    let z_s := vanishing_polynomial points
    match poly_div_q_r gamma_fis z_s with
    | .error e => .error e
    | .ok hr =>
      match curve_msm s.powers_of_g1 hr.1 with
      | .error e => .error e
      | .ok w_1 =>
        let t2 := sp.append gz.2 .openW w_1
        let zz := sp.challenge t2 .openZ
        let gamma_ri_z := polyEval (polyMul hr.2 z_s) zz.1
        let f_z := polySub gamma_fis [gamma_ri_z]
        let l := polySub f_z (polyScale (polyEval z_s zz.1) hr.1)
        let l_quotient := densePolyDiv l [-zz.1, 1]
        match curve_msm s.powers_of_g1 l_quotient with
        | .error e => .error e
        | .ok w_2 => .ok ((w_1, w_2), zz.2)

/-- Probe into Method-2 open: the remainder that arkworks Div discards
when open divides L by X - z (same computation path as m2Open, returning
the remainder instead of the proof). -/
def m2OpenRemainder {σ : Type} (s : M2Setup F) (sp : Sponge σ F) (t0 : σ)
    (evals : List (List F)) (polys : List (List F)) (points : List F) :
    Except Error (List F) :=
  let t1 := transcribe_points_and_evals sp t0 points evals
  let gz := sp.challenge t1 .openGamma
  let gammas := gen_powers gz.1 s.powers_of_g1.length
  match linear_combination polys gammas with
  | none => .error .noPolynomialsGiven
  | some gamma_fis =>
    let z_s := vanishing_polynomial points
    match poly_div_q_r gamma_fis z_s with
    | .error e => .error e
    | .ok hr =>
      match curve_msm s.powers_of_g1 hr.1 with
      | .error e => .error e
      | .ok w_1 =>
        let t2 := sp.append gz.2 .openW w_1
        let zz := sp.challenge t2 .openZ
        let gamma_ri_z := polyEval (polyMul hr.2 z_s) zz.1
        let f_z := polySub gamma_fis [gamma_ri_z]
        let l := polySub f_z (polyScale (polyEval z_s zz.1) hr.1)
        .ok (divModAux (l.length + 1) l [-zz.1, 1]).2

/-- Per-index Lagrange numerator polynomial: the product of X - s_j over
all indices j different from k. -/
def lagNumer (pts : List F) (k : Nat) : List F :=
  vanishing_polynomial (pts.eraseIdx k)

/-- Per-index inverse Lagrange denominator: the inverse of the product of
s_k - s_j over all indices j different from k. -/
def lagDenomInv (pts : List F) (k : Nat) : F :=
  (((pts.eraseIdx k).map (fun sj => pts.getD k 0 - sj)).prod)⁻¹

/-- Modelled from the spec: the LagrangeInterpContext (lagrange module,
absent from src/).  Caches the point set with the per-index numerator
polynomials and inverse denominators (section 4.D). -/
structure LagrangeInterpContext (F : Type) where
  points : List F
  numerators : List (List F)
  denom_invs : List F

/-- Modelled from the spec: LagrangeInterpContext::new_from_points
(absent from src/): precomputes the numerators and inverse denominators
of the point set. -/
def LagrangeInterpContext.new_from_points (pts : List F) :
    Except Error (LagrangeInterpContext F) :=
  .ok ⟨pts, (List.range pts.length).map (fun k => lagNumer pts k),
    (List.range pts.length).map (fun k => lagDenomInv pts k)⟩

/-- The coefficient vector computed by lagrange_interp_linear_combo: for
each point index k, one polynomial-scaled-add of the numerator N_k scaled
by (sum over rows i of scalar_i * E[i][k]) * d_k (section 4.D: the
summation over rows happens per point, so only one scaled-add per point
is performed). -/
def lagrangeCombo (pts : List F) (evals : List (List F)) (scalars : List F) : List F :=
  (List.range pts.length).foldl
    (fun acc k =>
      polyAdd acc (polyScale
        ((List.zipWith (fun g row => g * row.getD k 0) scalars evals).sum * lagDenomInv pts k)
        (lagNumer pts k)))
    []

/-- Modelled from the spec: lagrange_interp_linear_combo (absent from
src/).  Fails with NoPolynomialsGiven on an empty row collection and with
EvalsIncorrectSize if any row length differs from the point count;
otherwise returns the combined interpolation polynomial. -/
def LagrangeInterpContext.lagrange_interp_linear_combo
    (ctx : LagrangeInterpContext F) (evals : List (List F)) (scalars : List F) :
    Except Error (List F) :=
  match evals with
  | [] => .error .noPolynomialsGiven
  | _ :: _ =>
    match evals.find? (fun r => r.length != ctx.points.length) with
    | some r => .error (.evalsIncorrectSize ctx.points.length r.length)
    | none => .ok (lagrangeCombo ctx.points evals scalars)

/-- Method-2 Setup::verify (src/method2/mod.rs lines 110-145).  Replays
the transcript, draws gamma and z, interpolates the gamma-combined rows,
and checks the pairing equation
e(sum gamma^i C_i - R(z) [1]_1 - Z_S(z) W1, [1]_2) = e(W2, [x]_2 - z [1]_2). -/
def m2Verify {σ : Type} (s : M2Setup F) (sp : Sponge σ F) (t0 : σ)
    (commits : List F) (points : List F) (evals : List (List F))
    (pf : M2Proof F) : Except Error Bool :=
  let t1 := transcribe_points_and_evals sp t0 points evals
  let gz := sp.challenge t1 .openGamma
  let t2 := sp.append gz.2 .openW pf.1
  let zz := sp.challenge t2 .openZ
  let zeros := vanishing_polynomial points
  let zeros_z := polyEval zeros zz.1
  let gammas := gen_powers gz.1 evals.length
  match LagrangeInterpContext.new_from_points points with
  | .error e => .error e
  | .ok ctx =>
    match ctx.lagrange_interp_linear_combo evals gammas with
    | .error e => .error e
    | .ok gamma_ris =>
      let gamma_ris_z := polyEval gamma_ris zz.1
      let gamma_ris_z_pt := s.powers_of_g1.getD 0 0 * gamma_ris_z
      match curve_msm commits gammas with
      | .error e => .error e
      | .ok gamma_cm_pt =>
        let f := gamma_cm_pt - gamma_ris_z_pt - pf.1 * zeros_z
        let x_minus_z := s.g2x - s.g2 * zz.1
        .ok (decide (pairing f s.g2 = pairing pf.2 x_minus_z))

/-- The m1_blst M1NoPrecomp setup (src/m1_blst/mod.rs lines 28-33): the
G1 and G2 power vectors.  The prepped_g1s / prepped_g2s fields are cached
byte-level re-encodings of the same two vectors for the blst backend and
carry no further information, so they are not separate fields here. -/
structure M1NoPrecomp (F : Type) where
  powers_of_g1 : List F
  powers_of_g2 : List F
  deriving DecidableEq

/-- fast_msm::prep_scalars (src/m1_blst/fast_msm.rs lines 44-52):
serializes each scalar to its canonical 32-byte little-endian encoding;
the byte level is external, so the prepared buffer is modelled as the
scalar list itself (the length in scalars equals the byte length over 32). -/
def prep_scalars (scalars : List F) : List F := scalars

/-- fast_msm::g1_msm (src/m1_blst/fast_msm.rs lines 54-71): errors with
PolynomialTooLarge when the stated table length is smaller than the
number of scalars, otherwise multiplies and sums. -/
def g1_msm (g1s : List F) (scalars : List F) (g1s_len : Nat) : Except Error F :=
  if g1s_len < scalars.length then
    .error (.polynomialTooLarge scalars.length g1s_len)
  else .ok (dotProd g1s scalars)

/-- fast_msm::g2_msm (src/m1_blst/fast_msm.rs lines 73-99): same contract
as g1_msm on the G2 table. -/
def g2_msm (g2s : List F) (scalars : List F) (g2s_len : Nat) : Except Error F :=
  if g2s_len < scalars.length then
    .error (.polynomialTooLarge scalars.length g2s_len)
  else .ok (dotProd g2s scalars)

/-- Committer::commit for M1NoPrecomp (src/m1_blst/mod.rs lines 118-124):
fast MSM of the G1 powers with the prepared coefficients, bound by the
G1 table length. -/
def m1Commit (s : M1NoPrecomp F) (poly : List F) : Except Error F :=
  g1_msm s.powers_of_g1 (prep_scalars poly) s.powers_of_g1.length

/-- M1NoPrecomp::new (src/m1_blst/mod.rs lines 128-149): samples x, takes
max_coeffs powers, defaults max_pts to max_coeffs + 1, builds the G1
powers from all of x_powers and the G2 powers from the slice
x_powers[..max_pts + 1].  The slice indexes out of bounds (a Rust panic,
modelled as none) whenever max_pts + 1 exceeds max_coeffs. -/
def m1New (max_coeffs : Nat) (max_pts : Option Nat) (rng : Rng F) :
    Option (M1NoPrecomp F × Rng F) :=
  let xr := rng.sample
  let x_powers := gen_powers xr.1 max_coeffs
  let mp := max_pts.getD (max_coeffs + 1)
  let g1r := gen_curve_powers x_powers xr.2
  if mp + 1 ≤ max_coeffs then
    let g2r := gen_curve_powers (x_powers.take (mp + 1)) g1r.2
    some (⟨g1r.1, g2r.1⟩, g2r.2)
  else none

/-- M1NoPrecomp::open_with_vanishing_poly (src/m1_blst/mod.rs lines
50-77): appends points and evals, draws gamma, combines the polynomials
with gamma powers sized to the setup, divides by the vanishing polynomial
discarding the remainder, and commits the quotient. -/
def m1OpenWithVanishingPoly {σ : Type} (s : M1NoPrecomp F) (sp : Sponge σ F) (t0 : σ)
    (evals : List (List F)) (polys : List (List F)) (points : List F)
    (vp : List F) : Except Error (F × σ) :=
  let t1 := transcribe_points_and_evals sp t0 points evals
  let gz := sp.challenge t1 .openGamma
  let gammas := gen_powers gz.1 s.powers_of_g1.length
  match linear_combination polys gammas with
  | none => .error .noPolynomialsGiven
  | some fsum =>
    match poly_div_q_r fsum vp with
    | .error e => .error e
    | .ok qr =>
      match g1_msm s.powers_of_g1 (prep_scalars qr.1) s.powers_of_g1.length with
      | .error e => .error e
      | .ok w => .ok (w, gz.2)

/-- M1NoPrecomp::open (src/m1_blst/mod.rs lines 151-160): open with the
vanishing polynomial of the point set. -/
def m1Open {σ : Type} (s : M1NoPrecomp F) (sp : Sponge σ F) (t0 : σ)
    (evals : List (List F)) (polys : List (List F)) (points : List F) :
    Except Error (F × σ) :=
  m1OpenWithVanishingPoly s sp t0 evals polys points (vanishing_polynomial points)

/-- M1NoPrecomp::verify_with_lag_ctx_g2_zeros (src/m1_blst/mod.rs lines
79-115): replays the transcript, draws gamma, interpolates the
gamma-combined rows, MSMs the result and the commitments, and checks
e(sum gamma^i C_i - [R(x)]_1, [1]_2) = e(proof, [Z_S(x)]_2). -/
def m1VerifyWithLagCtxG2Zeros {σ : Type} (s : M1NoPrecomp F) (sp : Sponge σ F) (t0 : σ)
    (commits : List F) (points : List F) (evals : List (List F)) (pf : F)
    (lag_ctx : LagrangeInterpContext F) (g2_zeros : F) : Except Error Bool :=
  let t1 := transcribe_points_and_evals sp t0 points evals
  let gz := sp.challenge t1 .openGamma
  let gammas := gen_powers gz.1 evals.length
  match lag_ctx.lagrange_interp_linear_combo evals gammas with
  | .error e => .error e
  | .ok gamma_ris =>
    match g1_msm s.powers_of_g1 (prep_scalars gamma_ris) s.powers_of_g1.length with
    | .error e => .error e
    | .ok gamma_ris_pt =>
      match g1_msm commits (prep_scalars gammas) commits.length with
      | .error e => .error e
      | .ok gamma_cm_pt =>
        let g2 := s.powers_of_g2.getD 0 0
        .ok (decide (pairing (gamma_cm_pt - gamma_ris_pt) g2 = pairing pf g2_zeros))

/-- M1NoPrecomp::verify (src/m1_blst/mod.rs lines 162-177): computes the
vanishing polynomial in G2 and the Lagrange context, then runs the
parameterised verifier. -/
def m1Verify {σ : Type} (s : M1NoPrecomp F) (sp : Sponge σ F) (t0 : σ)
    (commits : List F) (points : List F) (evals : List (List F)) (pf : F) :
    Except Error Bool :=
  let vp := vanishing_polynomial points
  match g2_msm s.powers_of_g2 (prep_scalars vp) s.powers_of_g2.length with
  | .error e => .error e
  | .ok g2_zeros =>
    match LagrangeInterpContext.new_from_points points with
    | .error e => .error e
    | .ok lag_ctx =>
      m1VerifyWithLagCtxG2Zeros s sp t0 commits points evals pf lag_ctx g2_zeros

/-- Running Method-2 open and then Method-2 verify on the produced proof,
both with transcripts initialised to the same state t0 (as in the source
test test_basic_open_works). -/
def m2OpenThenVerify {σ : Type} (s : M2Setup F) (sp : Sponge σ F) (t0 : σ)
    (commits : List F) (evals : List (List F)) (polys : List (List F))
    (points : List F) : Except Error Bool :=
  match m2Open s sp t0 evals polys points with
  | .error e => .error e
  | .ok pf => m2Verify s sp t0 commits points evals pf.1

/-- Running Method-1 open and then Method-1 verify on the produced proof,
both with transcripts initialised to the same state t0. -/
def m1OpenThenVerify {σ : Type} (s : M1NoPrecomp F) (sp : Sponge σ F) (t0 : σ)
    (commits : List F) (evals : List (List F)) (polys : List (List F))
    (points : List F) : Except Error Bool :=
  match m1Open s sp t0 evals polys points with
  | .error e => .error e
  | .ok pf => m1Verify s sp t0 commits points evals pf.1

/-- Variant of Method-1 open_with_vanishing_poly that generates only as
many gamma powers as there are polynomials (the refinement suggested by
the spec's open question in section 9), for comparison with the original
opener. -/
def m1OpenTruncatedGammas {σ : Type} (s : M1NoPrecomp F) (sp : Sponge σ F) (t0 : σ)
    (evals : List (List F)) (polys : List (List F)) (points : List F)
    (vp : List F) : Except Error (F × σ) :=
  let t1 := transcribe_points_and_evals sp t0 points evals
  let gz := sp.challenge t1 .openGamma
  let gammas := gen_powers gz.1 polys.length
  match linear_combination polys gammas with
  | none => .error .noPolynomialsGiven
  | some fsum =>
    match poly_div_q_r fsum vp with
    | .error e => .error e
    | .ok qr =>
      match g1_msm s.powers_of_g1 (prep_scalars qr.1) s.powers_of_g1.length with
      | .error e => .error e
      | .ok w => .ok (w, gz.2)

/-- Gamma-weighted Lagrange interpolation written the way the claim and
spec state it: the scalar-weighted sum over rows i of the interpolation
r_i of row i (one interpolation per row), for comparison with the
implementation's per-point lagrangeCombo. -/
def lagRow (pts : List F) (row : List F) : List F :=
  (List.range pts.length).foldl
    (fun acc k =>
      polyAdd acc (polyScale (row.getD k 0 * lagDenomInv pts k) (lagNumer pts k)))
    []

/-- Spec-side gamma-weighted sum of per-row interpolations. -/
def specGammaWeightedInterp (pts : List F) (evals : List (List F)) (scalars : List F) :
    List F :=
  (List.zipWith (fun g row => polyScale g (lagRow pts row)) scalars evals).foldl polyAdd []

instance : Fact (Nat.Prime 5) := ⟨by norm_num⟩

/-- A concrete deterministic sponge over the five-element field used to
instantiate theorems on concrete inputs: the state is trivial and the two
challenges are the constants 2 (gamma) and 3 (z). -/
def unitSponge : Sponge Unit (ZMod 5) :=
  ⟨fun _ _ _ => (), fun _ l => (if l = .openGamma then 2 else if l = .openZ then 3 else 0, ())⟩

/-- A concrete randomness stream over the five-element field: position i
holds i + 2, so the sampled secret is 2, the G1 generator draw is 3 and
the G2 generator draw is 4. -/
def cRng : Rng (ZMod 5) := ⟨fun i => ((i : ZMod 5) + 2), 0⟩

/-- The evaluation table produced by honestly evaluating each polynomial
at each point: E[i][k] = polys_i(s_k). -/
def honestEvals (polys : List (List F)) (points : List F) : List (List F) :=
  polys.map (fun pl => points.map (fun s => polyEval pl s))

/-- The gamma challenge drawn after transcribing points and evals (the
first challenge of both open and verify). -/
def chalGamma {σ : Type} (sp : Sponge σ F) (t0 : σ) (points : List F)
    (evals : List (List F)) : F × σ :=
  sp.challenge (transcribe_points_and_evals sp t0 points evals) .openGamma

/-- The combined polynomial sum gamma^i polys_i computed inside open
(gamma powers sized to the setup). -/
def m2FN {σ : Type} (s : M2Setup F) (sp : Sponge σ F) (t0 : σ)
    (evals polys : List (List F)) (points : List F) : List F :=
  (List.zipWith polyScale
    (gen_powers (chalGamma sp t0 points evals).1 s.powers_of_g1.length) polys).foldl
    polyAdd []

/-- Quotient and remainder of the combined polynomial by the vanishing
polynomial, as computed inside Method-2 open. -/
def m2QR {σ : Type} (s : M2Setup F) (sp : Sponge σ F) (t0 : σ)
    (evals polys : List (List F)) (points : List F) : List F × List F :=
  divModAux ((m2FN s sp t0 evals polys points).length + 1)
    (m2FN s sp t0 evals polys points) (vanishing_polynomial points)

/-- The first Method-2 proof element W1. -/
def m2W1 {σ : Type} (s : M2Setup F) (sp : Sponge σ F) (t0 : σ)
    (evals polys : List (List F)) (points : List F) : F :=
  dotProd s.powers_of_g1 (m2QR s sp t0 evals polys points).1

/-- The z challenge drawn by the Method-2 verifier after transcribing a
given W1 (and by the prover with its computed W1). -/
def m2VZ {σ : Type} (sp : Sponge σ F) (t0 : σ) (points : List F)
    (evals : List (List F)) (w1 : F) : F × σ :=
  sp.challenge (sp.append (chalGamma sp t0 points evals).2 .openW w1) .openZ

/-- The z challenge drawn inside Method-2 open. -/
def m2ChalZ {σ : Type} (s : M2Setup F) (sp : Sponge σ F) (t0 : σ)
    (evals polys : List (List F)) (points : List F) : F × σ :=
  m2VZ sp t0 points evals (m2W1 s sp t0 evals polys points)

/-- The polynomial L = F - (remainder * Z_S)(z) - Z_S(z) * h built inside
Method-2 open. -/
def m2L {σ : Type} (s : M2Setup F) (sp : Sponge σ F) (t0 : σ)
    (evals polys : List (List F)) (points : List F) : List F :=
  polySub
    (polySub (m2FN s sp t0 evals polys points)
      [polyEval (polyMul (m2QR s sp t0 evals polys points).2 (vanishing_polynomial points))
        (m2ChalZ s sp t0 evals polys points).1])
    (polyScale (polyEval (vanishing_polynomial points) (m2ChalZ s sp t0 evals polys points).1)
      (m2QR s sp t0 evals polys points).1)

/-- Quotient and remainder of L by X - z inside Method-2 open. -/
def m2LQR {σ : Type} (s : M2Setup F) (sp : Sponge σ F) (t0 : σ)
    (evals polys : List (List F)) (points : List F) : List F × List F :=
  divModAux ((m2L s sp t0 evals polys points).length + 1)
    (m2L s sp t0 evals polys points) [-(m2ChalZ s sp t0 evals polys points).1, 1]

/-- The second Method-2 proof element W2. -/
def m2W2 {σ : Type} (s : M2Setup F) (sp : Sponge σ F) (t0 : σ)
    (evals polys : List (List F)) (points : List F) : F :=
  dotProd s.powers_of_g1 (m2LQR s sp t0 evals polys points).1

/-- The combined polynomial computed inside Method-1 open (gamma powers
sized to the setup). -/
def m1FN {σ : Type} (s : M1NoPrecomp F) (sp : Sponge σ F) (t0 : σ)
    (evals polys : List (List F)) (points : List F) : List F :=
  (List.zipWith polyScale
    (gen_powers (chalGamma sp t0 points evals).1 s.powers_of_g1.length) polys).foldl
    polyAdd []

/-- Quotient and remainder of the Method-1 combined polynomial by the
supplied vanishing polynomial. -/
def m1QR {σ : Type} (s : M1NoPrecomp F) (sp : Sponge σ F) (t0 : σ)
    (evals polys : List (List F)) (points : List F) (vp : List F) : List F × List F :=
  divModAux ((m1FN s sp t0 evals polys points).length + 1)
    (m1FN s sp t0 evals polys points) vp

/-- The Method-1 proof element. -/
def m1W {σ : Type} (s : M1NoPrecomp F) (sp : Sponge σ F) (t0 : σ)
    (evals polys : List (List F)) (points : List F) (vp : List F) : F :=
  dotProd s.powers_of_g1 (m1QR s sp t0 evals polys points vp).1

theorem polyEval_nil (z : F) : polyEval ([] : List F) z = 0 := rfl

theorem polyEval_cons (c : F) (p : List F) (z : F) :
    polyEval (c :: p) z = c + z * polyEval p z := rfl

theorem polyEval_polyAdd (z : F) :
    ∀ p q : List F, polyEval (polyAdd p q) z = polyEval p z + polyEval q z
  | [], q => by simp [polyAdd, polyEval]
  | c :: p, [] => by simp [polyAdd, polyEval]
  | c :: p, d :: q => by
    simp only [polyAdd, polyEval_cons, polyEval_polyAdd z p q]; ring

theorem polyEval_polyNeg (z : F) : ∀ p : List F, polyEval (polyNeg p) z = -polyEval p z
  | [] => by simp [polyNeg, polyEval]
  | c :: p => by
    have ih := polyEval_polyNeg z p
    simp only [polyNeg, List.map_cons] at ih ⊢
    rw [polyEval_cons, polyEval_cons, ih]; ring

theorem polyEval_polySub (z : F) (p q : List F) :
    polyEval (polySub p q) z = polyEval p z - polyEval q z := by
  rw [polySub, polyEval_polyAdd, polyEval_polyNeg]; ring

theorem polyEval_polyScale (z c : F) : ∀ p : List F,
    polyEval (polyScale c p) z = c * polyEval p z
  | [] => by simp [polyScale, polyEval]
  | d :: p => by
    have ih := polyEval_polyScale z c p
    simp only [polyScale, List.map_cons] at ih ⊢
    rw [polyEval_cons, polyEval_cons, ih]; ring

theorem polyEval_polyMul (z : F) : ∀ p q : List F,
    polyEval (polyMul p q) z = polyEval p z * polyEval q z
  | [], q => by simp [polyMul, polyEval]
  | c :: p, q => by
    simp only [polyMul, polyEval_polyAdd, polyEval_polyScale, polyEval_cons,
      polyEval_polyMul z p q]
    ring

theorem polyEval_replicate_append (z : F) (q : List F) :
    ∀ k : Nat, polyEval (List.replicate k 0 ++ q) z = z ^ k * polyEval q z
  | 0 => by simp
  | k + 1 => by
    rw [List.replicate_succ, List.cons_append, polyEval_cons,
      polyEval_replicate_append z q k, pow_succ]
    ring

theorem polyAdd_length : ∀ p q : List F, (polyAdd p q).length = max p.length q.length
  | [], q => by simp [polyAdd]
  | c :: p, [] => by simp [polyAdd]
  | c :: p, d :: q => by
    simp only [polyAdd, List.length_cons, polyAdd_length p q]
    omega

theorem polyNeg_length (p : List F) : (polyNeg p).length = p.length := by
  simp [polyNeg]

theorem polySub_length (p q : List F) : (polySub p q).length = max p.length q.length := by
  rw [polySub, polyAdd_length, polyNeg_length]

theorem polyScale_length (c : F) (p : List F) : (polyScale c p).length = p.length := by
  simp [polyScale]

theorem lastCoeff_cons_of_ne_nil (a : F) : ∀ l : List F, l ≠ [] → lastCoeff (a :: l) = lastCoeff l
  | [], h => absurd rfl h
  | _ :: _, _ => rfl

theorem lastCoeff_cons_cons (a b : F) (p : List F) :
    lastCoeff (a :: b :: p) = lastCoeff (b :: p) := rfl

theorem lastCoeff_polyAdd_right : ∀ p q : List F, p.length < q.length →
    lastCoeff (polyAdd p q) = lastCoeff q
  | [], q, _ => by simp [polyAdd]
  | c :: p, [], h => by simp at h
  | c :: p, d :: q, h => by
    have hq : q ≠ [] := by
      intro hq; subst hq; simp at h
    have hpq : polyAdd p q ≠ [] := by
      intro hnil
      have hlen := polyAdd_length p q
      rw [hnil] at hlen
      simp only [List.length_nil] at hlen
      exact hq (List.length_eq_zero.mp (by omega))
    show lastCoeff ((c + d) :: polyAdd p q) = _
    rw [lastCoeff_cons_of_ne_nil _ _ hpq,
      lastCoeff_polyAdd_right p q (by simpa using h),
      lastCoeff_cons_of_ne_nil _ _ hq]

theorem lastCoeff_polyAdd_eq : ∀ p q : List F, p.length = q.length →
    lastCoeff (polyAdd p q) = lastCoeff p + lastCoeff q
  | [], [], _ => by simp [polyAdd, lastCoeff]
  | [], d :: q, h => by simp at h
  | c :: p, [], h => by simp at h
  | c :: p, d :: q, h => by
    cases p with
    | nil =>
      cases q with
      | nil => simp [polyAdd, lastCoeff]
      | cons d2 q2 => simp at h
    | cons c2 p2 =>
      cases q with
      | nil => simp at h
      | cons d2 q2 =>
        have ih := lastCoeff_polyAdd_eq (c2 :: p2) (d2 :: q2) (by simpa using h)
        have hne : polyAdd (c2 :: p2) (d2 :: q2) ≠ [] := by simp [polyAdd]
        show lastCoeff ((c + d) :: polyAdd (c2 :: p2) (d2 :: q2)) = _
        rw [lastCoeff_cons_of_ne_nil _ _ hne, ih,
          lastCoeff_cons_of_ne_nil c (c2 :: p2) (by simp),
          lastCoeff_cons_of_ne_nil d (d2 :: q2) (by simp)]

theorem lastCoeff_replicate_append (q : List F) (hq : q ≠ []) :
    ∀ k : Nat, lastCoeff (List.replicate k 0 ++ q) = lastCoeff q
  | 0 => by simp
  | k + 1 => by
    rw [List.replicate_succ, List.cons_append,
      lastCoeff_cons_of_ne_nil _ _ (by simp [hq]),
      lastCoeff_replicate_append q hq k]

theorem lastCoeff_polyScale (c : F) : ∀ p : List F, lastCoeff (polyScale c p) = c * lastCoeff p
  | [] => by simp [polyScale, lastCoeff]
  | [a] => by simp [polyScale, lastCoeff]
  | a :: b :: p => by
    have ih := lastCoeff_polyScale c (b :: p)
    simp only [polyScale, List.map_cons] at ih ⊢
    rw [lastCoeff_cons_cons, ih, lastCoeff_cons_cons]

theorem lastCoeff_polyNeg : ∀ p : List F, lastCoeff (polyNeg p) = -lastCoeff p
  | [] => by simp [polyNeg, lastCoeff]
  | [a] => by simp [polyNeg, lastCoeff]
  | a :: b :: p => by
    have ih := lastCoeff_polyNeg (b :: p)
    simp only [polyNeg, List.map_cons] at ih ⊢
    rw [lastCoeff_cons_cons, ih, lastCoeff_cons_cons]

theorem trim_cons (c : F) (p : List F) :
    trim (c :: p) = if trim p = [] then (if c = 0 then [] else [c]) else c :: trim p := by
  cases h : trim p with
  | nil => simp [trim, h]
  | cons a q => simp [trim, h]

theorem polyEval_eq_zero_of_trim_nil (z : F) : ∀ p : List F, trim p = [] → polyEval p z = 0
  | [], _ => rfl
  | c :: p, h => by
    rw [trim_cons] at h
    by_cases hp : trim p = []
    · rw [if_pos hp] at h
      by_cases hc : c = 0
      · rw [polyEval_cons, polyEval_eq_zero_of_trim_nil z p hp, hc]; ring
      · rw [if_neg hc] at h; exact absurd h (by simp)
    · rw [if_neg hp] at h; exact absurd h (by simp)

theorem polyEval_trim (z : F) : ∀ p : List F, polyEval (trim p) z = polyEval p z
  | [] => rfl
  | c :: p => by
    rw [trim_cons]
    by_cases hp : trim p = []
    · rw [if_pos hp]
      by_cases hc : c = 0
      · rw [if_pos hc, polyEval_nil, polyEval_cons, hc,
          polyEval_eq_zero_of_trim_nil z p hp]
        ring
      · rw [if_neg hc, polyEval_cons, polyEval_cons, polyEval_nil,
          polyEval_eq_zero_of_trim_nil z p hp]
        try ring
    · rw [if_neg hp, polyEval_cons, polyEval_cons, polyEval_trim z p]

theorem trim_length_le : ∀ p : List F, (trim p).length ≤ p.length
  | [] => le_refl 0
  | c :: p => by
    rw [trim_cons]
    by_cases hp : trim p = []
    · rw [if_pos hp]
      by_cases hc : c = 0
      · simp [hc]
      · simp [hc]
    · rw [if_neg hp]
      have := trim_length_le p
      simp only [List.length_cons]
      omega

theorem trim_eq_self_of_lastCoeff_ne_zero : ∀ p : List F, lastCoeff p ≠ 0 → trim p = p
  | [], h => absurd rfl h
  | [c], h => by
    have hc : c ≠ 0 := h
    simp [trim, hc]
  | c :: b :: p, h => by
    have hl : lastCoeff (b :: p) ≠ 0 := h
    have ih := trim_eq_self_of_lastCoeff_ne_zero (b :: p) hl
    rw [trim_cons, if_neg (by rw [ih]; simp), ih]

theorem lastCoeff_trim_ne_zero : ∀ p : List F, trim p ≠ [] → lastCoeff (trim p) ≠ 0
  | [], h => absurd rfl h
  | c :: p, h => by
    rw [trim_cons] at h ⊢
    by_cases hp : trim p = []
    · rw [if_pos hp] at h ⊢
      by_cases hc : c = 0
      · rw [if_pos hc] at h; exact absurd rfl h
      · rw [if_neg hc]; exact hc
    · rw [if_neg hp] at h ⊢
      rw [lastCoeff_cons_of_ne_nil _ _ hp]
      exact lastCoeff_trim_ne_zero p hp

theorem trim_length_lt_of_lastCoeff_eq_zero :
    ∀ p : List F, p ≠ [] → lastCoeff p = 0 → (trim p).length < p.length
  | [], h, _ => absurd rfl h
  | [c], _, h => by
    have hc : c = 0 := h
    simp [trim, hc]
  | c :: b :: p, _, h => by
    have hl : lastCoeff (b :: p) = 0 := h
    have ih := trim_length_lt_of_lastCoeff_eq_zero (b :: p) (by simp) hl
    rw [trim_cons]
    by_cases hp : trim (b :: p) = []
    · rw [if_pos hp]
      by_cases hc : c = 0
      · simp [hc]
      · simp [hc]
    · rw [if_neg hp]
      simp only [List.length_cons] at ih ⊢
      omega

theorem polyEval_of_length_le_one (z w : F) :
    ∀ p : List F, p.length ≤ 1 → polyEval p z = polyEval p w
  | [], _ => rfl
  | [c], _ => by simp [polyEval]
  | _ :: _ :: _, h => by simp at h

theorem lastCoeff_polySub_eq (p q : List F) (h : p.length = q.length) :
    lastCoeff (polySub p q) = lastCoeff p - lastCoeff q := by
  rw [polySub, lastCoeff_polyAdd_eq p (polyNeg q) (by rw [polyNeg_length]; exact h),
    lastCoeff_polyNeg]
  ring

theorem divModAux_spec (b : List F) (hb : trim b ≠ []) :
    ∀ fuel : Nat, ∀ a : List F, (trim a).length ≤ fuel →
      (∀ z : F, polyEval a z =
          polyEval (divModAux fuel a b).1 z * polyEval b z +
            polyEval (divModAux fuel a b).2 z) ∧
        (divModAux fuel a b).2.length < (trim b).length ∧
        (divModAux fuel a b).1.length ≤ (trim a).length + 1 - (trim b).length := by
  intro fuel
  induction fuel with
  | zero =>
    intro a ha
    have ha0 : trim a = [] := List.length_eq_zero.mp (Nat.le_zero.mp ha)
    refine ⟨?_, ?_, ?_⟩
    · intro z
      show polyEval a z = polyEval [] z * polyEval b z + polyEval (trim a) z
      rw [polyEval_nil, polyEval_trim, zero_mul, zero_add]
    · show (trim a).length < (trim b).length
      rw [ha0]
      exact List.length_pos.mpr hb
    · show ([] : List F).length ≤ (trim a).length + 1 - (trim b).length
      simp
  | succ fuel ih =>
    intro a ha
    by_cases hlt : (trim a).length < (trim b).length
    · have hdef : divModAux (fuel + 1) a b = ([], trim a) := by
        simp only [divModAux]
        rw [if_pos hlt]
      rw [hdef]
      refine ⟨?_, hlt, by simp⟩
      intro z
      rw [polyEval_nil, polyEval_trim, zero_mul, zero_add]
    · have htb1 : 1 ≤ (trim b).length := List.length_pos.mpr hb
      have htab : (trim b).length ≤ (trim a).length := Nat.le_of_not_lt hlt
      have hta : trim a ≠ [] := by
        intro h0
        rw [h0] at htab
        simp only [List.length_nil, Nat.le_zero] at htab
        omega
      set c := lastCoeff (trim a) / lastCoeff (trim b) with hc
      set k := (trim a).length - (trim b).length with hk
      set aN := polySub (trim a) (List.replicate k 0 ++ polyScale c (trim b)) with haN
      have hdef : divModAux (fuel + 1) a b =
          (polyAdd (divModAux fuel aN b).1 (List.replicate k 0 ++ [c]),
            (divModAux fuel aN b).2) := by
        simp only [divModAux]
        rw [if_neg hlt]
      have hslen : (List.replicate k 0 ++ polyScale c (trim b)).length = (trim a).length := by
        rw [List.length_append, List.length_replicate, polyScale_length]
        omega
      have haNlen : aN.length = (trim a).length := by
        rw [haN, polySub_length, hslen]
        omega
      have haNlast : lastCoeff aN = 0 := by
        rw [haN, lastCoeff_polySub_eq _ _ hslen.symm,
          lastCoeff_replicate_append _ (by simp [polyScale, hb]),
          lastCoeff_polyScale, hc,
          div_mul_cancel₀ _ (lastCoeff_trim_ne_zero b hb)]
        ring
      have haNtrim : (trim aN).length < (trim a).length := by
        have := trim_length_lt_of_lastCoeff_eq_zero aN
          (by intro h0; rw [h0] at haNlen; simp at haNlen; omega) haNlast
        omega
      have hfuel : (trim aN).length ≤ fuel :=
        Nat.le_of_lt_succ (lt_of_lt_of_le haNtrim ha)
      obtain ⟨ih1, ih2, ih3⟩ := ih aN hfuel
      rw [hdef]
      refine ⟨?_, ih2, ?_⟩
      · intro z
        have heq : polyEval aN z =
            polyEval (trim a) z - z ^ k * (c * polyEval (trim b) z) := by
          rw [haN, polyEval_polySub, polyEval_replicate_append, polyEval_polyScale]
        have h1 := ih1 z
        rw [heq] at h1
        have h2 : polyEval (polyAdd (divModAux fuel aN b).1 (List.replicate k 0 ++ [c])) z =
            polyEval (divModAux fuel aN b).1 z + z ^ k * c := by
          rw [polyEval_polyAdd, polyEval_replicate_append, polyEval_cons, polyEval_nil]
          ring
        rw [h2]
        have h3 : polyEval a z = polyEval (trim a) z := (polyEval_trim z a).symm
        have h4 : polyEval (trim b) z = polyEval b z := polyEval_trim z b
        rw [h4] at h1
        rw [h3]
        linear_combination h1
      · rw [polyAdd_length, List.length_append, List.length_replicate,
          List.length_singleton]
        omega

theorem poly_div_q_r_ok (a b : List F) (hb : trim b ≠ []) :
    poly_div_q_r a b = .ok (divModAux (a.length + 1) a b) := by
  rw [poly_div_q_r, if_neg hb]

theorem fuel_ok (a : List F) : (trim a).length ≤ a.length + 1 := by
  have := trim_length_le a
  omega

theorem divMod_eval (a b : List F) (hb : trim b ≠ []) (z : F) :
    polyEval a z = polyEval (divModAux (a.length + 1) a b).1 z * polyEval b z +
      polyEval (divModAux (a.length + 1) a b).2 z :=
  (divModAux_spec b hb (a.length + 1) a (fuel_ok a)).1 z

theorem divMod_rem_length (a b : List F) (hb : trim b ≠ []) :
    (divModAux (a.length + 1) a b).2.length < (trim b).length :=
  (divModAux_spec b hb (a.length + 1) a (fuel_ok a)).2.1

theorem divMod_quot_length (a b : List F) (hb : trim b ≠ []) :
    (divModAux (a.length + 1) a b).1.length ≤ (trim a).length + 1 - (trim b).length :=
  (divModAux_spec b hb (a.length + 1) a (fuel_ok a)).2.2

theorem divMod_quot_length_le (a b : List F) (hb : trim b ≠ []) :
    (divModAux (a.length + 1) a b).1.length ≤ a.length := by
  have h1 := divMod_quot_length a b hb
  have h2 := trim_length_le a
  have h3 := List.length_pos.mpr hb
  omega

theorem polyEval_linear (s z : F) : polyEval [-s, 1] z = z - s := by
  simp [polyEval]
  ring

theorem lastCoeff_linear (s : F) : lastCoeff [-s, 1] = 1 := rfl

theorem trim_linear (s : F) : trim [-s, 1] = [-s, 1] :=
  trim_eq_self_of_lastCoeff_ne_zero _ (by rw [lastCoeff_linear]; exact one_ne_zero)

theorem trim_linear_ne_nil (s : F) : trim [-s, 1] ≠ ([] : List F) := by
  rw [trim_linear]
  simp

theorem polyEval_vanishing_foldl (z : F) : ∀ (pts : List F) (acc : List F),
    polyEval (pts.foldl (fun ac s => polyMul ac [-s, 1]) acc) z =
      polyEval acc z * (pts.map (fun s => z - s)).prod
  | [], acc => by simp
  | s :: pts, acc => by
    simp only [List.foldl_cons, List.map_cons, List.prod_cons]
    rw [polyEval_vanishing_foldl z pts (polyMul acc [-s, 1]), polyEval_polyMul,
      polyEval_linear]
    ring

theorem polyEval_vanishing (pts : List F) (z : F) :
    polyEval (vanishing_polynomial pts) z = (pts.map (fun s => z - s)).prod := by
  rw [vanishing_polynomial, polyEval_vanishing_foldl]
  simp [polyEval]

theorem polyMul_linear_length (s : F) : ∀ p : List F, p ≠ [] →
    (polyMul p [-s, 1]).length = p.length + 1
  | [], h => absurd rfl h
  | [c], _ => by simp [polyMul, polyAdd, polyScale]
  | c :: b :: p, _ => by
    have ih := polyMul_linear_length s (b :: p) (by simp)
    show (polyAdd (polyScale c [-s, 1]) (0 :: polyMul (b :: p) [-s, 1])).length = _
    rw [polyAdd_length, polyScale_length,
      show (0 :: polyMul (b :: p) [-s, 1]).length = (polyMul (b :: p) [-s, 1]).length + 1
        from List.length_cons _ _,
      ih]
    simp only [List.length_cons, List.length_nil]
    omega

theorem vanishing_foldl_length : ∀ (pts : List F) (acc : List F), acc ≠ [] →
    (pts.foldl (fun ac s => polyMul ac [-s, 1]) acc).length = acc.length + pts.length
  | [], acc, _ => by simp
  | s :: pts, acc, hacc => by
    simp only [List.foldl_cons]
    have hmul := polyMul_linear_length s acc hacc
    have hne : polyMul acc [-s, 1] ≠ [] := by
      intro h0
      rw [h0] at hmul
      simp at hmul
    rw [vanishing_foldl_length pts (polyMul acc [-s, 1]) hne, hmul,
      List.length_cons]
    omega

theorem vanishing_length (pts : List F) :
    (vanishing_polynomial pts).length = pts.length + 1 := by
  rw [vanishing_polynomial, vanishing_foldl_length pts [1] (by simp)]
  simp
  omega

theorem lastCoeff_polyMul_linear (s : F) : ∀ p : List F, p ≠ [] →
    lastCoeff (polyMul p [-s, 1]) = lastCoeff p
  | [], h => absurd rfl h
  | [c], _ => by
    show lastCoeff (polyAdd (polyScale c [-s, 1]) (0 :: polyMul [] [-s, 1])) = c
    show lastCoeff (polyAdd [c * -s, c * 1] [0]) = c
    show lastCoeff [c * -s + 0, c * 1] = c
    rw [lastCoeff_cons_cons]
    show c * 1 = c
    ring
  | c :: b :: p, _ => by
    have ih := lastCoeff_polyMul_linear s (b :: p) (by simp)
    have hlen2 := polyMul_linear_length s (b :: p) (by simp)
    show lastCoeff (polyAdd (polyScale c [-s, 1]) (0 :: polyMul (b :: p) [-s, 1])) = _
    have hne : polyMul (b :: p) [-s, 1] ≠ [] := by
      intro h0
      rw [h0] at hlen2
      simp at hlen2
    rw [lastCoeff_polyAdd_right _ _ (by
        rw [polyScale_length,
          show (0 :: polyMul (b :: p) [-s, 1]).length = (polyMul (b :: p) [-s, 1]).length + 1
            from List.length_cons _ _,
          hlen2]
        simp only [List.length_cons, List.length_nil]
        omega),
      lastCoeff_cons_of_ne_nil _ _ hne, ih, lastCoeff_cons_cons]

theorem lastCoeff_vanishing_foldl : ∀ (pts acc : List F), acc ≠ [] →
    lastCoeff (pts.foldl (fun ac s => polyMul ac [-s, 1]) acc) = lastCoeff acc
  | [], _, _ => rfl
  | s :: pts, acc, hacc => by
    simp only [List.foldl_cons]
    have hmul := polyMul_linear_length s acc hacc
    have hne : polyMul acc [-s, 1] ≠ [] := by
      intro h0
      rw [h0] at hmul
      simp at hmul
    rw [lastCoeff_vanishing_foldl pts (polyMul acc [-s, 1]) hne,
      lastCoeff_polyMul_linear s acc hacc]

theorem lastCoeff_vanishing (pts : List F) : lastCoeff (vanishing_polynomial pts) = 1 := by
  rw [vanishing_polynomial, lastCoeff_vanishing_foldl pts [1] (by simp)]
  rfl

theorem trim_vanishing (pts : List F) :
    trim (vanishing_polynomial pts) = vanishing_polynomial pts :=
  trim_eq_self_of_lastCoeff_ne_zero _ (by rw [lastCoeff_vanishing]; exact one_ne_zero)

theorem trim_vanishing_ne_nil (pts : List F) : trim (vanishing_polynomial pts) ≠ [] := by
  rw [trim_vanishing]
  intro h0
  have := vanishing_length pts
  rw [h0] at this
  simp at this

theorem eval_zero_of_many_roots : ∀ pts : List F, pts.Nodup →
    ∀ p : List F, p.length ≤ pts.length → (∀ s ∈ pts, polyEval p s = 0) →
    ∀ z : F, polyEval p z = 0
  | [], _, p, hlen, _, z => by
    have hp : p = [] := List.length_eq_zero.mp (Nat.le_zero.mp hlen)
    rw [hp]
    rfl
  | s :: pts, hnd, p, hlen, hroots, z => by
    obtain ⟨hs, hnd2⟩ := List.nodup_cons.mp hnd
    have hd := trim_linear_ne_nil s
    have hid := divMod_eval p [-s, 1] hd
    have hrlen : (divModAux (p.length + 1) p [-s, 1]).2.length < 2 := by
      have := divMod_rem_length p [-s, 1] hd
      rw [trim_linear] at this
      simpa using this
    have hrconst : ∀ w : F, polyEval (divModAux (p.length + 1) p [-s, 1]).2 w =
        polyEval (divModAux (p.length + 1) p [-s, 1]).2 s := fun w =>
      polyEval_of_length_le_one w s _ (by omega)
    have hrs : polyEval (divModAux (p.length + 1) p [-s, 1]).2 s = 0 := by
      have h0 := hid s
      rw [polyEval_linear, hroots s (by simp), sub_self, mul_zero, zero_add] at h0
      exact h0.symm
    have hqroots : ∀ w ∈ pts, polyEval (divModAux (p.length + 1) p [-s, 1]).1 w = 0 := by
      intro w hw
      have hws : w ≠ s := fun he => hs (he ▸ hw)
      have h0 := hid w
      rw [polyEval_linear, hroots w (by simp [hw]), hrconst w, hrs, add_zero] at h0
      rcases mul_eq_zero.mp h0.symm with h | h
      · exact h
      · exact absurd (sub_eq_zero.mp h) hws
    have hqlen : (divModAux (p.length + 1) p [-s, 1]).1.length ≤ pts.length := by
      have hql := divMod_quot_length p [-s, 1] hd
      rw [trim_linear] at hql
      have htp := trim_length_le p
      simp only [List.length_cons] at hlen hql ⊢
      omega
    have ihq := eval_zero_of_many_roots pts hnd2 _ hqlen hqroots
    have h0 := hid z
    rw [polyEval_linear, ihq z, hrconst z, hrs] at h0
    rw [h0]
    ring

theorem polyEval_eq_of_agree_on (pts : List F) (hnd : pts.Nodup) (p q : List F)
    (hp : p.length ≤ pts.length) (hq : q.length ≤ pts.length)
    (hagree : ∀ s ∈ pts, polyEval p s = polyEval q s) :
    ∀ z : F, polyEval p z = polyEval q z := by
  intro z
  have h := eval_zero_of_many_roots pts hnd (polySub p q)
    (by rw [polySub_length]; omega)
    (fun s hs => by rw [polyEval_polySub, hagree s hs]; ring) z
  rw [polyEval_polySub] at h
  exact sub_eq_zero.mp h

theorem getD_mem {α : Type} (d : α) : ∀ (l : List α) (j : Nat), j < l.length → l.getD j d ∈ l
  | a :: l, 0, _ => by simp
  | a :: l, j + 1, h => by
    rw [List.getD_cons_succ]
    exact List.mem_cons_of_mem a (getD_mem d l j (by simpa using h))

theorem getD_mem_eraseIdx {α : Type} (d : α) : ∀ (l : List α) (j k : Nat),
    j < l.length → j ≠ k → l.getD j d ∈ l.eraseIdx k
  | [], j, _, h, _ => by simp at h
  | a :: l, j, 0, hj, hne => by
    cases j with
    | zero => exact absurd rfl hne
    | succ j =>
      show l.getD j d ∈ l
      exact getD_mem d l j (by simpa using hj)
  | a :: l, 0, k + 1, _, _ => by
    show a ∈ a :: l.eraseIdx k
    simp
  | a :: l, j + 1, k + 1, hj, hne => by
    rw [List.getD_cons_succ]
    show l.getD j d ∈ a :: l.eraseIdx k
    exact List.mem_cons_of_mem a
      (getD_mem_eraseIdx d l j k (by simpa using hj) (by omega))

theorem getD_not_mem_eraseIdx {α : Type} (d : α) :
    ∀ l : List α, l.Nodup → ∀ j : Nat, j < l.length → l.getD j d ∉ l.eraseIdx j
  | [], _, j, h => by simp at h
  | a :: l, hnd, 0, _ => by
    show (a :: l).getD 0 d ∉ l
    rw [List.getD_cons_zero]
    exact (List.nodup_cons.mp hnd).1
  | a :: l, hnd, j + 1, hj => by
    rw [List.getD_cons_succ]
    show l.getD j d ∉ a :: l.eraseIdx j
    obtain ⟨ha, hnd2⟩ := List.nodup_cons.mp hnd
    intro hmem
    rcases List.mem_cons.mp hmem with he | hm
    · exact ha (he ▸ getD_mem d l j (by simpa using hj))
    · exact getD_not_mem_eraseIdx d l hnd2 j (by simpa using hj) hm

theorem polyEval_foldl_polyAdd (z : F) : ∀ (L : List (List F)) (acc : List F),
    polyEval (L.foldl polyAdd acc) z = polyEval acc z + (L.map (fun q => polyEval q z)).sum
  | [], acc => by simp
  | q :: L, acc => by
    simp only [List.foldl_cons, List.map_cons, List.sum_cons]
    rw [polyEval_foldl_polyAdd z L (polyAdd acc q), polyEval_polyAdd]
    ring

theorem length_foldl_polyAdd_le (n : Nat) : ∀ (L : List (List F)) (acc : List F),
    acc.length ≤ n → (∀ q ∈ L, q.length ≤ n) → (L.foldl polyAdd acc).length ≤ n
  | [], acc, ha, _ => ha
  | q :: L, acc, ha, hL => by
    simp only [List.foldl_cons]
    refine length_foldl_polyAdd_le n L (polyAdd acc q) ?_ ?_
    · rw [polyAdd_length]
      exact max_le ha (hL q (by simp))
    · intro r hr
      exact hL r (by simp [hr])

theorem sum_map_range (f : Nat → F) : ∀ n : Nat,
    ((List.range n).map f).sum = ∑ k in Finset.range n, f k
  | 0 => by simp
  | n + 1 => by
    rw [List.range_succ, List.map_append, List.sum_append, Finset.sum_range_succ,
      sum_map_range f n]
    simp

theorem getD_map_range {α : Type} (d : α) (f : Nat → α) (n k : Nat) (h : k < n) :
    ((List.range n).map f).getD k d = f k := by
  have hlen : k < ((List.range n).map f).length := by simpa using h
  rw [List.getD_eq_getElem _ d hlen]
  simp

theorem getD_map_of_lt {α β : Type} (d : β) (da : α) (f : α → β) :
    ∀ (l : List α) (k : Nat), k < l.length → (l.map f).getD k d = f (l.getD k da)
  | a :: l, 0, _ => by simp
  | a :: l, k + 1, h => by
    simp only [List.map_cons, List.getD_cons_succ]
    exact getD_map_of_lt d da f l k (by simpa using h)

theorem zipWith_cons_cons_eq {α β γ : Type} (f : α → β → γ) (a : α) (b : β)
    (l1 : List α) (l2 : List β) :
    List.zipWith f (a :: l1) (b :: l2) = f a b :: List.zipWith f l1 l2 := rfl

theorem foldl_polyAdd_map {α : Type} (f : α → List F) :
    ∀ (L : List α) (acc : List F),
      L.foldl (fun ac y => polyAdd ac (f y)) acc = (L.map f).foldl polyAdd acc
  | [], _ => rfl
  | y :: L, acc => by
    simp only [List.foldl_cons, List.map_cons]
    exact foldl_polyAdd_map f L _

theorem map_polyEval_zipWith_polyScale (z : F) :
    ∀ (scalars : List F) (polys : List (List F)),
      (List.zipWith polyScale scalars polys).map (fun q => polyEval q z) =
        List.zipWith (fun g pl => g * polyEval pl z) scalars polys
  | [], _ => by simp
  | g :: s, [] => by simp
  | g :: s, pl :: P => by
    rw [zipWith_cons_cons_eq, List.map_cons, zipWith_cons_cons_eq,
      map_polyEval_zipWith_polyScale z s P, polyEval_polyScale]

theorem linear_combination_some (polys : List (List F)) (h : polys ≠ []) (scalars : List F) :
    linear_combination polys scalars =
      some ((List.zipWith polyScale scalars polys).foldl polyAdd []) := by
  cases polys with
  | nil => exact absurd rfl h
  | cons a l => rfl

theorem polyEval_linear_combination (scalars : List F) (polys : List (List F)) (z : F) :
    polyEval ((List.zipWith polyScale scalars polys).foldl polyAdd []) z =
      (List.zipWith (fun g pl => g * polyEval pl z) scalars polys).sum := by
  rw [polyEval_foldl_polyAdd, map_polyEval_zipWith_polyScale]
  simp [polyEval]

theorem zipWith_polyScale_length_le (n : Nat) :
    ∀ (scalars : List F) (polys : List (List F)), (∀ pl ∈ polys, pl.length ≤ n) →
      ∀ q ∈ List.zipWith polyScale scalars polys, q.length ≤ n
  | [], _, _, q, hq => by simp at hq
  | g :: s, [], _, q, hq => by simp at hq
  | g :: s, pl :: P, h, q, hq => by
    rw [zipWith_cons_cons_eq] at hq
    rcases List.mem_cons.mp hq with he | hm
    · rw [he, polyScale_length]
      exact h pl (by simp)
    · exact zipWith_polyScale_length_le n s P (fun r hr => h r (by simp [hr])) q hm

theorem linear_combination_length_le (n : Nat) (scalars : List F) (polys : List (List F))
    (h : ∀ pl ∈ polys, pl.length ≤ n) :
    ((List.zipWith polyScale scalars polys).foldl polyAdd []).length ≤ n :=
  length_foldl_polyAdd_le n _ [] (by simp) (zipWith_polyScale_length_le n scalars polys h)

theorem zipWith_take_left {α β γ : Type} (f : α → β → γ) :
    ∀ (l1 : List α) (l2 : List β) (n : Nat), l2.length ≤ n →
      List.zipWith f (l1.take n) l2 = List.zipWith f l1 l2
  | [], l2, n, _ => by simp
  | a :: l1, [], n, _ => by simp
  | a :: l1, b :: l2, 0, h => by simp at h
  | a :: l1, b :: l2, n + 1, h => by
    rw [List.take_succ_cons, zipWith_cons_cons_eq, zipWith_cons_cons_eq,
      zipWith_take_left f l1 l2 n (by simpa using h)]

theorem gen_powers_take (y : F) (n t : Nat) (h : t ≤ n) :
    (gen_powers y n).take t = gen_powers y t := by
  rw [gen_powers, gen_powers, ← List.map_take, List.take_range, Nat.min_eq_left h]

theorem zipWith_gen_powers_truncate {β γ : Type} (f : F → β → γ) (y : F)
    (P : List β) (n : Nat) (h : P.length ≤ n) :
    List.zipWith f (gen_powers y n) P = List.zipWith f (gen_powers y P.length) P := by
  rw [← gen_powers_take y n P.length h, zipWith_take_left f _ P P.length (le_refl _)]

theorem polyEval_lagrangeCombo (pts : List F) (evals : List (List F)) (scalars : List F)
    (z : F) :
    polyEval (lagrangeCombo pts evals scalars) z =
      ∑ k in Finset.range pts.length,
        (List.zipWith (fun g row => g * row.getD k 0) scalars evals).sum *
          lagDenomInv pts k * polyEval (lagNumer pts k) z := by
  rw [lagrangeCombo, foldl_polyAdd_map, polyEval_foldl_polyAdd, List.map_map]
  have hfun : (fun q => polyEval q z) ∘
      (fun k => polyScale
        ((List.zipWith (fun g row => g * row.getD k 0) scalars evals).sum * lagDenomInv pts k)
        (lagNumer pts k)) =
      fun k => (List.zipWith (fun g row => g * row.getD k 0) scalars evals).sum *
        lagDenomInv pts k * polyEval (lagNumer pts k) z := by
    funext k
    show polyEval (polyScale _ _) z = _
    rw [polyEval_polyScale]
  rw [hfun, sum_map_range]
  simp [polyEval]

theorem eraseIdx_length_lt {α : Type} (l : List α) (k : Nat) (h : k < l.length) :
    (l.eraseIdx k).length + 1 = l.length := by
  rw [List.length_eraseIdx, if_pos h]
  omega

theorem lagNumer_length (pts : List F) (k : Nat) (h : k < pts.length) :
    (lagNumer pts k).length = pts.length := by
  rw [lagNumer, vanishing_length, eraseIdx_length_lt pts k h]

theorem lagrangeCombo_length_le (pts : List F) (evals : List (List F)) (scalars : List F) :
    (lagrangeCombo pts evals scalars).length ≤ pts.length := by
  rw [lagrangeCombo, foldl_polyAdd_map]
  apply length_foldl_polyAdd_le
  · simp
  · intro q hq
    simp only [List.mem_map] at hq
    obtain ⟨k, hk, rfl⟩ := hq
    rw [polyScale_length, lagNumer_length pts k (List.mem_range.mp hk)]

theorem lagNumer_eval_ne (pts : List F) (j k : Nat) (hj : j < pts.length) (hne : j ≠ k) :
    polyEval (lagNumer pts k) (pts.getD j 0) = 0 := by
  rw [lagNumer, polyEval_vanishing]
  apply List.prod_eq_zero
  refine List.mem_map.mpr ⟨pts.getD j 0, getD_mem_eraseIdx 0 pts j k hj hne, ?_⟩
  ring

theorem lagNumer_denom_self (pts : List F) (hnd : pts.Nodup) (j : Nat)
    (hj : j < pts.length) :
    lagDenomInv pts j * polyEval (lagNumer pts j) (pts.getD j 0) = 1 := by
  rw [lagNumer, polyEval_vanishing, lagDenomInv]
  apply inv_mul_cancel₀
  apply List.prod_ne_zero
  intro h0
  rcases List.mem_map.mp h0 with ⟨y, hy, hy0⟩
  have hyj : y = pts.getD j 0 := (sub_eq_zero.mp hy0).symm
  exact getD_not_mem_eraseIdx 0 pts hnd j hj (hyj ▸ hy)

theorem lagrangeCombo_eval_node (pts : List F) (hnd : pts.Nodup)
    (evals : List (List F)) (scalars : List F) (j : Nat) (hj : j < pts.length) :
    polyEval (lagrangeCombo pts evals scalars) (pts.getD j 0) =
      (List.zipWith (fun g row => g * row.getD j 0) scalars evals).sum := by
  rw [polyEval_lagrangeCombo, Finset.sum_eq_single j]
  · rw [mul_assoc, lagNumer_denom_self pts hnd j hj, mul_one]
  · intro k _ hkj
    rw [lagNumer_eval_ne pts j k hj (fun he => hkj he.symm), mul_zero]
  · intro hj2
    exact absurd (Finset.mem_range.mpr hj) hj2

theorem zipWith_sum_honest (pts : List F) :
    ∀ (gammas : List F) (polys : List (List F)) (j : Nat), j < pts.length →
      (List.zipWith (fun g row => g * row.getD j 0) gammas
        (polys.map (fun pl => pts.map (fun s => polyEval pl s)))).sum =
        (List.zipWith (fun g pl => g * polyEval pl (pts.getD j 0)) gammas polys).sum
  | [], _, _, _ => by simp
  | g :: s, [], _, _ => by simp
  | g :: s, pl :: P, j, hj => by
    simp only [List.map_cons, zipWith_cons_cons_eq, List.sum_cons]
    rw [zipWith_sum_honest pts s P j hj,
      getD_map_of_lt 0 0 (fun t => polyEval pl t) pts j hj]

theorem gen_powers_length (y : F) (n : Nat) : (gen_powers y n).length = n := by
  simp [gen_powers]

theorem gen_powers_succ (y : F) (n : Nat) :
    gen_powers y (n + 1) = 1 :: polyScale y (gen_powers y n) := by
  rw [gen_powers, List.range_succ_eq_map, List.map_cons, List.map_map]
  congr 1
  · exact pow_zero y
  · rw [gen_powers, polyScale, List.map_map]
    congr 1
    funext i
    show y ^ (i + 1) = y * y ^ i
    rw [pow_succ]
    ring

theorem dotProd_nil_right (p : List F) : dotProd p [] = 0 := by
  simp [dotProd]

theorem dotProd_cons_cons (p s : F) (ps ss : List F) :
    dotProd (p :: ps) (s :: ss) = p * s + dotProd ps ss := by
  simp [dotProd]

theorem dotProd_polyScale_left (a : F) : ∀ (w s : List F),
    dotProd (polyScale a w) s = a * dotProd w s
  | [], s => by simp [polyScale, dotProd]
  | x :: w, [] => by simp [polyScale, dotProd]
  | x :: w, y :: s => by
    show dotProd (a * x :: polyScale a w) (y :: s) = _
    rw [dotProd_cons_cons, dotProd_cons_cons, dotProd_polyScale_left a w s]
    ring

theorem dotProd_gen_powers (x : F) : ∀ (s : List F) (n : Nat), s.length ≤ n →
    dotProd (gen_powers x n) s = polyEval s x
  | [], _, _ => by simp [dotProd, polyEval]
  | c :: s, 0, h => by simp at h
  | c :: s, n + 1, h => by
    rw [gen_powers_succ, dotProd_cons_cons, dotProd_polyScale_left,
      dotProd_gen_powers x s n (by simpa using h), polyEval_cons]
    ring

theorem dotProd_powers (a x : F) (n : Nat) (s : List F) (h : s.length ≤ n) :
    dotProd (polyScale a (gen_powers x n)) s = a * polyEval s x := by
  rw [dotProd_polyScale_left, dotProd_gen_powers x s n h]

theorem dotProd_map_commits (a x : F) : ∀ (polys : List (List F)) (gammas : List F),
    dotProd (polys.map (fun pl => a * polyEval pl x)) gammas =
      a * (List.zipWith (fun g pl => g * polyEval pl x) gammas polys).sum
  | [], _ => by simp [dotProd]
  | pl :: P, [] => by simp [dotProd]
  | pl :: P, g :: gs => by
    simp only [List.map_cons]
    rw [dotProd_cons_cons, zipWith_cons_cons_eq, List.sum_cons,
      dotProd_map_commits a x P gs]
    ring

theorem curve_msm_ok (points scalars : List F) (h : scalars.length ≤ points.length) :
    curve_msm points scalars = .ok (dotProd points scalars) := by
  rw [curve_msm, if_neg (by omega)]

theorem g1_msm_ok (g1s scalars : List F) (n : Nat) (h : scalars.length ≤ n) :
    g1_msm g1s scalars n = .ok (dotProd g1s scalars) := by
  rw [g1_msm, if_neg (by omega)]

theorem g2_msm_ok (g2s scalars : List F) (n : Nat) (h : scalars.length ≤ n) :
    g2_msm g2s scalars n = .ok (dotProd g2s scalars) := by
  rw [g2_msm, if_neg (by omega)]

theorem powers_getD_zero (a x : F) (n : Nat) (h : 1 ≤ n) :
    (polyScale a (gen_powers x n)).getD 0 0 = a := by
  cases n with
  | zero => omega
  | succ m =>
    rw [gen_powers_succ]
    show (polyScale a (1 :: polyScale x (gen_powers x m))).getD 0 0 = a
    simp [polyScale]

theorem chalGamma_def {σ : Type} (sp : Sponge σ F) (t0 : σ) (points : List F)
    (evals : List (List F)) :
    chalGamma sp t0 points evals =
      sp.challenge (transcribe_points_and_evals sp t0 points evals) .openGamma := rfl

theorem m2FN_def {σ : Type} (s : M2Setup F) (sp : Sponge σ F) (t0 : σ)
    (evals polys : List (List F)) (points : List F) :
    m2FN s sp t0 evals polys points =
      (List.zipWith polyScale
        (gen_powers (chalGamma sp t0 points evals).1 s.powers_of_g1.length) polys).foldl
        polyAdd [] := rfl

theorem m2QR_def {σ : Type} (s : M2Setup F) (sp : Sponge σ F) (t0 : σ)
    (evals polys : List (List F)) (points : List F) :
    m2QR s sp t0 evals polys points =
      divModAux ((m2FN s sp t0 evals polys points).length + 1)
        (m2FN s sp t0 evals polys points) (vanishing_polynomial points) := rfl

theorem m2W1_def {σ : Type} (s : M2Setup F) (sp : Sponge σ F) (t0 : σ)
    (evals polys : List (List F)) (points : List F) :
    m2W1 s sp t0 evals polys points =
      dotProd s.powers_of_g1 (m2QR s sp t0 evals polys points).1 := rfl

theorem m2VZ_def {σ : Type} (sp : Sponge σ F) (t0 : σ) (points : List F)
    (evals : List (List F)) (w1 : F) :
    m2VZ sp t0 points evals w1 =
      sp.challenge (sp.append (chalGamma sp t0 points evals).2 .openW w1) .openZ := rfl

theorem m2ChalZ_def {σ : Type} (s : M2Setup F) (sp : Sponge σ F) (t0 : σ)
    (evals polys : List (List F)) (points : List F) :
    m2ChalZ s sp t0 evals polys points =
      m2VZ sp t0 points evals (m2W1 s sp t0 evals polys points) := rfl

theorem m2L_def {σ : Type} (s : M2Setup F) (sp : Sponge σ F) (t0 : σ)
    (evals polys : List (List F)) (points : List F) :
    m2L s sp t0 evals polys points =
      polySub
        (polySub (m2FN s sp t0 evals polys points)
          [polyEval
            (polyMul (m2QR s sp t0 evals polys points).2 (vanishing_polynomial points))
            (m2ChalZ s sp t0 evals polys points).1])
        (polyScale
          (polyEval (vanishing_polynomial points) (m2ChalZ s sp t0 evals polys points).1)
          (m2QR s sp t0 evals polys points).1) := rfl

theorem m2LQR_def {σ : Type} (s : M2Setup F) (sp : Sponge σ F) (t0 : σ)
    (evals polys : List (List F)) (points : List F) :
    m2LQR s sp t0 evals polys points =
      divModAux ((m2L s sp t0 evals polys points).length + 1)
        (m2L s sp t0 evals polys points)
        [-(m2ChalZ s sp t0 evals polys points).1, 1] := rfl

theorem m2W2_def {σ : Type} (s : M2Setup F) (sp : Sponge σ F) (t0 : σ)
    (evals polys : List (List F)) (points : List F) :
    m2W2 s sp t0 evals polys points =
      dotProd s.powers_of_g1 (m2LQR s sp t0 evals polys points).1 := rfl

theorem m1FN_def {σ : Type} (s : M1NoPrecomp F) (sp : Sponge σ F) (t0 : σ)
    (evals polys : List (List F)) (points : List F) :
    m1FN s sp t0 evals polys points =
      (List.zipWith polyScale
        (gen_powers (chalGamma sp t0 points evals).1 s.powers_of_g1.length) polys).foldl
        polyAdd [] := rfl

theorem m1QR_def {σ : Type} (s : M1NoPrecomp F) (sp : Sponge σ F) (t0 : σ)
    (evals polys : List (List F)) (points : List F) (vp : List F) :
    m1QR s sp t0 evals polys points vp =
      divModAux ((m1FN s sp t0 evals polys points).length + 1)
        (m1FN s sp t0 evals polys points) vp := rfl

theorem m1W_def {σ : Type} (s : M1NoPrecomp F) (sp : Sponge σ F) (t0 : σ)
    (evals polys : List (List F)) (points : List F) (vp : List F) :
    m1W s sp t0 evals polys points vp =
      dotProd s.powers_of_g1 (m1QR s sp t0 evals polys points vp).1 := rfl

theorem m2Open_eq {σ : Type} (s : M2Setup F) (sp : Sponge σ F) (t0 : σ)
    (evals polys : List (List F)) (points : List F) (hne : polys ≠ [])
    (hq : (m2QR s sp t0 evals polys points).1.length ≤ s.powers_of_g1.length)
    (hlq : (m2LQR s sp t0 evals polys points).1.length ≤ s.powers_of_g1.length) :
    m2Open s sp t0 evals polys points =
      .ok ((m2W1 s sp t0 evals polys points, m2W2 s sp t0 evals polys points),
        (m2ChalZ s sp t0 evals polys points).2) := by
  have hdiv : ∀ aa : List F, poly_div_q_r aa (vanishing_polynomial points) =
      .ok (divModAux (aa.length + 1) aa (vanishing_polynomial points)) :=
    fun aa => poly_div_q_r_ok aa _ (trim_vanishing_ne_nil points)
  have hm1 : curve_msm s.powers_of_g1 (m2QR s sp t0 evals polys points).1 =
      .ok (m2W1 s sp t0 evals polys points) := curve_msm_ok _ _ hq
  have hm2 : curve_msm s.powers_of_g1 (m2LQR s sp t0 evals polys points).1 =
      .ok (m2W2 s sp t0 evals polys points) := curve_msm_ok _ _ hlq
  simp only [m2Open, densePolyDiv, linear_combination_some polys hne, hdiv]
  simp only [← chalGamma_def, ← m2FN_def, ← m2QR_def]
  simp only [hm1]
  simp only [← m2W1_def, ← m2VZ_def, ← m2ChalZ_def, ← m2L_def, ← m2LQR_def]
  simp only [hm2]

theorem m2Verify_eq {σ : Type} (s : M2Setup F) (sp : Sponge σ F) (t0 : σ)
    (commits : List F) (points : List F) (evals : List (List F)) (pf : M2Proof F)
    (hne : evals ≠ []) (hrows : ∀ r ∈ evals, r.length = points.length)
    (hcm : evals.length ≤ commits.length) :
    m2Verify s sp t0 commits points evals pf =
      .ok (decide (pairing
        (dotProd commits (gen_powers (chalGamma sp t0 points evals).1 evals.length) -
          s.powers_of_g1.getD 0 0 *
            polyEval (lagrangeCombo points evals
              (gen_powers (chalGamma sp t0 points evals).1 evals.length))
              (m2VZ sp t0 points evals pf.1).1 -
          pf.1 * polyEval (vanishing_polynomial points) (m2VZ sp t0 points evals pf.1).1)
        s.g2 =
        pairing pf.2 (s.g2x - s.g2 * (m2VZ sp t0 points evals pf.1).1))) := by
  cases evals with
  | nil => exact absurd rfl hne
  | cons r0 rest =>
    have hfind : (r0 :: rest).find? (fun r => r.length != points.length) = none := by
      apply List.find?_eq_none.mpr
      intro x hx
      simp [hrows x hx]
    have hmsm : curve_msm commits
        (gen_powers (chalGamma sp t0 points (r0 :: rest)).1 (r0 :: rest).length) =
        .ok (dotProd commits
          (gen_powers (chalGamma sp t0 points (r0 :: rest)).1 (r0 :: rest).length)) :=
      curve_msm_ok _ _ (by rw [gen_powers_length]; exact hcm)
    simp only [m2Verify, LagrangeInterpContext.new_from_points,
      LagrangeInterpContext.lagrange_interp_linear_combo, hfind]
    simp only [← chalGamma_def, ← m2VZ_def]
    simp only [hmsm]

theorem m1Open_eq {σ : Type} (s : M1NoPrecomp F) (sp : Sponge σ F) (t0 : σ)
    (evals polys : List (List F)) (points : List F) (vp : List F)
    (hne : polys ≠ []) (hvp : trim vp ≠ [])
    (hq : (m1QR s sp t0 evals polys points vp).1.length ≤ s.powers_of_g1.length) :
    m1OpenWithVanishingPoly s sp t0 evals polys points vp =
      .ok (m1W s sp t0 evals polys points vp, (chalGamma sp t0 points evals).2) := by
  have hdiv : ∀ aa : List F, poly_div_q_r aa vp = .ok (divModAux (aa.length + 1) aa vp) :=
    fun aa => poly_div_q_r_ok aa _ hvp
  have hm : g1_msm s.powers_of_g1 (prep_scalars (m1QR s sp t0 evals polys points vp).1)
      s.powers_of_g1.length = .ok (m1W s sp t0 evals polys points vp) :=
    g1_msm_ok _ _ _ hq
  simp only [m1OpenWithVanishingPoly, linear_combination_some polys hne, hdiv]
  simp only [← chalGamma_def, ← m1FN_def, ← m1QR_def]
  simp only [hm]

theorem m1Verify_eq {σ : Type} (s : M1NoPrecomp F) (sp : Sponge σ F) (t0 : σ)
    (commits : List F) (points : List F) (evals : List (List F)) (pf : F)
    (hne : evals ≠ []) (hrows : ∀ r ∈ evals, r.length = points.length)
    (hcm : evals.length ≤ commits.length)
    (hR : (lagrangeCombo points evals
      (gen_powers (chalGamma sp t0 points evals).1 evals.length)).length ≤
        s.powers_of_g1.length)
    (hvp : (vanishing_polynomial points).length ≤ s.powers_of_g2.length) :
    m1Verify s sp t0 commits points evals pf =
      .ok (decide (pairing
        (dotProd commits (gen_powers (chalGamma sp t0 points evals).1 evals.length) -
          dotProd s.powers_of_g1 (lagrangeCombo points evals
            (gen_powers (chalGamma sp t0 points evals).1 evals.length)))
        (s.powers_of_g2.getD 0 0) =
        pairing pf (dotProd s.powers_of_g2 (vanishing_polynomial points)))) := by
  cases evals with
  | nil => exact absurd rfl hne
  | cons r0 rest =>
    have hg2 : g2_msm s.powers_of_g2 (prep_scalars (vanishing_polynomial points))
        s.powers_of_g2.length = .ok (dotProd s.powers_of_g2 (vanishing_polynomial points)) :=
      g2_msm_ok _ _ _ hvp
    have hfind : (r0 :: rest).find? (fun r => r.length != points.length) = none := by
      apply List.find?_eq_none.mpr
      intro x hx
      simp [hrows x hx]
    have hg1R : g1_msm s.powers_of_g1
        (prep_scalars (lagrangeCombo points (r0 :: rest)
          (gen_powers (chalGamma sp t0 points (r0 :: rest)).1 (r0 :: rest).length)))
        s.powers_of_g1.length =
        .ok (dotProd s.powers_of_g1 (lagrangeCombo points (r0 :: rest)
          (gen_powers (chalGamma sp t0 points (r0 :: rest)).1 (r0 :: rest).length))) :=
      g1_msm_ok _ _ _ hR
    have hg1C : g1_msm commits
        (prep_scalars (gen_powers (chalGamma sp t0 points (r0 :: rest)).1
          (r0 :: rest).length)) commits.length =
        .ok (dotProd commits (gen_powers (chalGamma sp t0 points (r0 :: rest)).1
          (r0 :: rest).length)) := by
      apply g1_msm_ok
      show (gen_powers (chalGamma sp t0 points (r0 :: rest)).1 (r0 :: rest).length).length ≤
        commits.length
      rw [gen_powers_length]
      exact hcm
    simp only [m1Verify, hg2, LagrangeInterpContext.new_from_points,
      m1VerifyWithLagCtxG2Zeros, LagrangeInterpContext.lagrange_interp_linear_combo, hfind]
    simp only [← chalGamma_def]
    simp only [hg1R, hg1C]

theorem polyEval_vanishing_mem (pts : List F) (s : F) (hs : s ∈ pts) :
    polyEval (vanishing_polynomial pts) s = 0 := by
  rw [polyEval_vanishing]
  apply List.prod_eq_zero
  exact List.mem_map.mpr ⟨s, hs, by ring⟩

theorem remainder_agrees (points : List F) (hnd : points.Nodup) (polys : List (List F))
    (gamma : F) (N : Nat) (hN : polys.length ≤ N) (zc : F) :
    polyEval (divModAux
      (((List.zipWith polyScale (gen_powers gamma N) polys).foldl polyAdd []).length + 1)
      ((List.zipWith polyScale (gen_powers gamma N) polys).foldl polyAdd [])
      (vanishing_polynomial points)).2 zc =
    polyEval (lagrangeCombo points (honestEvals polys points)
      (gen_powers gamma polys.length)) zc := by
  apply polyEval_eq_of_agree_on points hnd
  · have h1 := divMod_rem_length
      ((List.zipWith polyScale (gen_powers gamma N) polys).foldl polyAdd [])
      (vanishing_polynomial points) (trim_vanishing_ne_nil points)
    rw [trim_vanishing, vanishing_length] at h1
    omega
  · exact lagrangeCombo_length_le _ _ _
  · intro s hs
    obtain ⟨⟨j, hj⟩, rfl⟩ := List.mem_iff_get.mp hs
    have hsgd : points.get ⟨j, hj⟩ = points.getD j 0 := by
      rw [List.getD_eq_getElem points 0 hj]
      simp
    rw [hsgd]
    have hid := divMod_eval
      ((List.zipWith polyScale (gen_powers gamma N) polys).foldl polyAdd [])
      (vanishing_polynomial points) (trim_vanishing_ne_nil points) (points.getD j 0)
    rw [polyEval_vanishing_mem points _ (getD_mem 0 points j hj), mul_zero, zero_add] at hid
    rw [← hid, polyEval_linear_combination, honestEvals,
      lagrangeCombo_eval_node points hnd _ _ j hj, zipWith_sum_honest points _ polys j hj,
      zipWith_gen_powers_truncate _ gamma polys N hN]

theorem pairing_equation_core (a b x zc Fx Fz qx qz remz lqx lqz r2x r2z Zz grz lx lz : F)
    (h1 : Fz = qz * Zz + remz)
    (h2 : lx = lqx * (x - zc) + r2x)
    (h3 : lz = lqz * (zc - zc) + r2z)
    (h4x : lx = Fx - (grz + x * 0) - Zz * qx)
    (h4z : lz = Fz - (grz + zc * 0) - Zz * qz)
    (hr : r2x = r2z) :
    pairing (a * Fx - a * remz - a * qx * Zz) b = pairing (a * lqx) (b * x - b * zc) := by
  rw [pairing, pairing]
  linear_combination (a * b) * h2 + (a * b) * h4z + (a * b) * h1 - (a * b) * h4x -
    (a * b) * h3 + (a * b) * hr

theorem m2_completeness_core {σ : Type} (sp : Sponge σ F) (t0 : σ) (a b x : F) (n : Nat)
    (s : M2Setup F) (points : List F) (polys : List (List F))
    (evals : List (List F)) (commits : List F)
    (hpow : s.powers_of_g1 = polyScale a (gen_powers x n))
    (hg2 : s.g2 = b) (hg2x : s.g2x = b * x)
    (hevals : evals = honestEvals polys points)
    (hcommits : commits = polys.map (fun pl => a * polyEval pl x))
    (hnd : points.Nodup) (hne : polys ≠ [])
    (ht : polys.length ≤ n) (hlen : ∀ pl ∈ polys, pl.length ≤ n) (hn : 1 ≤ n) :
    m2OpenThenVerify s sp t0 commits evals polys points = .ok true := by
  have hplen : s.powers_of_g1.length = n := by
    rw [hpow, polyScale_length, gen_powers_length]
  have hZt := trim_vanishing_ne_nil (F := F) points
  have hFNlen : (m2FN s sp t0 evals polys points).length ≤ n := by
    rw [m2FN_def]
    exact linear_combination_length_le n _ polys hlen
  have hq := divMod_quot_length_le (m2FN s sp t0 evals polys points)
    (vanishing_polynomial points) hZt
  rw [← m2QR_def] at hq
  have hq1 : (m2QR s sp t0 evals polys points).1.length ≤ s.powers_of_g1.length := by
    omega
  have hLlen : (m2L s sp t0 evals polys points).length ≤ n := by
    rw [m2L_def, polySub_length, polySub_length, polyScale_length]
    simp only [List.length_cons, List.length_nil]
    omega
  have hlq := divMod_quot_length_le (m2L s sp t0 evals polys points)
    [-(m2ChalZ s sp t0 evals polys points).1, 1]
    (trim_linear_ne_nil (m2ChalZ s sp t0 evals polys points).1)
  rw [← m2LQR_def] at hlq
  have hlq1 : (m2LQR s sp t0 evals polys points).1.length ≤ s.powers_of_g1.length := by
    omega
  have hopen := m2Open_eq s sp t0 evals polys points hne hq1 hlq1
  have hevne : evals ≠ [] := by
    rw [hevals, honestEvals]
    intro h0
    exact hne (List.map_eq_nil_iff.mp h0)
  have hrows : ∀ r ∈ evals, r.length = points.length := by
    intro r hr
    rw [hevals, honestEvals] at hr
    obtain ⟨pl, _, rfl⟩ := List.mem_map.mp hr
    simp
  have hevlen : evals.length = polys.length := by
    rw [hevals, honestEvals, List.length_map]
  have hcmlen : commits.length = polys.length := by
    rw [hcommits, List.length_map]
  have hverify := m2Verify_eq s sp t0 commits points evals
    (m2W1 s sp t0 evals polys points, m2W2 s sp t0 evals polys points) hevne hrows
    (by omega)
  simp only [m2OpenThenVerify, hopen]
  rw [hverify]
  refine congrArg Except.ok ?_
  rw [decide_eq_true_eq]
  simp only [← m2ChalZ_def]
  -- value equations
  have hFNn : m2FN s sp t0 evals polys points =
      (List.zipWith polyScale (gen_powers (chalGamma sp t0 points evals).1 n) polys).foldl
        polyAdd [] := by
    rw [m2FN_def, hplen]
  have hcmv : dotProd commits
      (gen_powers (chalGamma sp t0 points evals).1 evals.length) =
      a * polyEval (m2FN s sp t0 evals polys points) x := by
    rw [hcommits, hevlen, dotProd_map_commits a x polys _, hFNn,
      polyEval_linear_combination,
      zipWith_gen_powers_truncate (fun g pl => g * polyEval pl x)
        (chalGamma sp t0 points evals).1 polys n ht]
  have hRz : polyEval (lagrangeCombo points evals
      (gen_powers (chalGamma sp t0 points evals).1 evals.length))
      (m2ChalZ s sp t0 evals polys points).1 =
      polyEval (m2QR s sp t0 evals polys points).2
        (m2ChalZ s sp t0 evals polys points).1 := by
    have hra := remainder_agrees points hnd polys (chalGamma sp t0 points evals).1 n ht
      (m2ChalZ s sp t0 evals polys points).1
    rw [← hFNn, ← m2QR_def] at hra
    rw [hevlen]
    rw [hevals] at hra ⊢
    exact hra.symm
  have hw1 : m2W1 s sp t0 evals polys points =
      a * polyEval (m2QR s sp t0 evals polys points).1 x := by
    rw [m2W1_def, hpow, dotProd_powers a x n _ (by omega)]
  have hw2 : m2W2 s sp t0 evals polys points =
      a * polyEval (m2LQR s sp t0 evals polys points).1 x := by
    rw [m2W2_def, hpow, dotProd_powers a x n _ (by omega)]
  have hg0 : s.powers_of_g1.getD 0 0 = a := by
    rw [hpow, powers_getD_zero a x n hn]
  rw [hcmv, hRz, hw1, hw2, hg0, hg2, hg2x]
  -- division identities
  have h1 := divMod_eval (m2FN s sp t0 evals polys points) (vanishing_polynomial points)
    hZt (m2ChalZ s sp t0 evals polys points).1
  rw [← m2QR_def] at h1
  have h2 := divMod_eval (m2L s sp t0 evals polys points)
    [-(m2ChalZ s sp t0 evals polys points).1, 1]
    (trim_linear_ne_nil (m2ChalZ s sp t0 evals polys points).1) x
  rw [← m2LQR_def, polyEval_linear] at h2
  have h3 := divMod_eval (m2L s sp t0 evals polys points)
    [-(m2ChalZ s sp t0 evals polys points).1, 1]
    (trim_linear_ne_nil (m2ChalZ s sp t0 evals polys points).1)
    (m2ChalZ s sp t0 evals polys points).1
  rw [← m2LQR_def, polyEval_linear] at h3
  have hr2c : polyEval (m2LQR s sp t0 evals polys points).2 x =
      polyEval (m2LQR s sp t0 evals polys points).2
        (m2ChalZ s sp t0 evals polys points).1 := by
    apply polyEval_of_length_le_one
    have h := divMod_rem_length (m2L s sp t0 evals polys points)
      [-(m2ChalZ s sp t0 evals polys points).1, 1]
      (trim_linear_ne_nil (m2ChalZ s sp t0 evals polys points).1)
    rw [← m2LQR_def, trim_linear] at h
    simp only [List.length_cons, List.length_nil] at h
    omega
  have h4 : ∀ w : F, polyEval (m2L s sp t0 evals polys points) w =
      polyEval (m2FN s sp t0 evals polys points) w -
        (polyEval (polyMul (m2QR s sp t0 evals polys points).2 (vanishing_polynomial points))
          (m2ChalZ s sp t0 evals polys points).1 + w * 0) -
        polyEval (vanishing_polynomial points) (m2ChalZ s sp t0 evals polys points).1 *
          polyEval (m2QR s sp t0 evals polys points).1 w := by
    intro w
    rw [m2L_def, polyEval_polySub, polyEval_polySub, polyEval_polyScale,
      polyEval_cons, polyEval_nil]
  exact pairing_equation_core a b x _ _ _ _ _ _ _ _ _ _ _ _ _ _ h1 h2 h3 (h4 x)
    (h4 (m2ChalZ s sp t0 evals polys points).1) hr2c

theorem m1_completeness_core {σ : Type} (sp : Sponge σ F) (t0 : σ) (a b x : F)
    (n p : Nat) (s : M1NoPrecomp F) (points : List F) (polys : List (List F))
    (evals : List (List F)) (commits : List F)
    (hpow1 : s.powers_of_g1 = polyScale a (gen_powers x n))
    (hpow2 : s.powers_of_g2 = polyScale b (gen_powers x (p + 1)))
    (hevals : evals = honestEvals polys points)
    (hcommits : commits = polys.map (fun pl => a * polyEval pl x))
    (hnd : points.Nodup) (hne : polys ≠ [])
    (ht : polys.length ≤ n) (hlen : ∀ pl ∈ polys, pl.length ≤ n)
    (hm : points.length ≤ p) (hp : p < n) :
    m1OpenThenVerify s sp t0 commits evals polys points = .ok true := by
  have hplen1 : s.powers_of_g1.length = n := by
    rw [hpow1, polyScale_length, gen_powers_length]
  have hplen2 : s.powers_of_g2.length = p + 1 := by
    rw [hpow2, polyScale_length, gen_powers_length]
  have hZt := trim_vanishing_ne_nil (F := F) points
  have hFNlen : (m1FN s sp t0 evals polys points).length ≤ n := by
    rw [m1FN_def]
    exact linear_combination_length_le n _ polys hlen
  have hq := divMod_quot_length_le (m1FN s sp t0 evals polys points)
    (vanishing_polynomial points) hZt
  rw [← m1QR_def] at hq
  have hq1 : (m1QR s sp t0 evals polys points (vanishing_polynomial points)).1.length ≤
      s.powers_of_g1.length := by
    omega
  have hopen := m1Open_eq s sp t0 evals polys points (vanishing_polynomial points)
    hne hZt hq1
  have hevne : evals ≠ [] := by
    rw [hevals, honestEvals]
    intro h0
    exact hne (List.map_eq_nil_iff.mp h0)
  have hrows : ∀ r ∈ evals, r.length = points.length := by
    intro r hr
    rw [hevals, honestEvals] at hr
    obtain ⟨pl, _, rfl⟩ := List.mem_map.mp hr
    simp
  have hevlen : evals.length = polys.length := by
    rw [hevals, honestEvals, List.length_map]
  have hcmlen : commits.length = polys.length := by
    rw [hcommits, List.length_map]
  have hRlen : (lagrangeCombo points evals
      (gen_powers (chalGamma sp t0 points evals).1 evals.length)).length ≤
      s.powers_of_g1.length := by
    have := lagrangeCombo_length_le points evals
      (gen_powers (chalGamma sp t0 points evals).1 evals.length)
    omega
  have hvplen : (vanishing_polynomial (F := F) points).length ≤ s.powers_of_g2.length := by
    rw [vanishing_length]
    omega
  have hverify := m1Verify_eq s sp t0 commits points evals
    (m1W s sp t0 evals polys points (vanishing_polynomial points)) hevne hrows
    (by omega) hRlen hvplen
  simp only [m1OpenThenVerify, m1Open, hopen]
  rw [hverify]
  refine congrArg Except.ok ?_
  rw [decide_eq_true_eq]
  -- value equations
  have hFNn : m1FN s sp t0 evals polys points =
      (List.zipWith polyScale (gen_powers (chalGamma sp t0 points evals).1 n) polys).foldl
        polyAdd [] := by
    rw [m1FN_def, hplen1]
  have hcmv : dotProd commits
      (gen_powers (chalGamma sp t0 points evals).1 evals.length) =
      a * polyEval (m1FN s sp t0 evals polys points) x := by
    rw [hcommits, hevlen, dotProd_map_commits a x polys _, hFNn,
      polyEval_linear_combination,
      zipWith_gen_powers_truncate (fun g pl => g * polyEval pl x)
        (chalGamma sp t0 points evals).1 polys n ht]
  have hRx : polyEval (lagrangeCombo points evals
      (gen_powers (chalGamma sp t0 points evals).1 evals.length)) x =
      polyEval (m1QR s sp t0 evals polys points (vanishing_polynomial points)).2 x := by
    have hra := remainder_agrees points hnd polys (chalGamma sp t0 points evals).1 n ht x
    rw [← hFNn, ← m1QR_def] at hra
    rw [hevlen]
    rw [hevals] at hra ⊢
    exact hra.symm
  have hdotR : dotProd s.powers_of_g1 (lagrangeCombo points evals
      (gen_powers (chalGamma sp t0 points evals).1 evals.length)) =
      a * polyEval (lagrangeCombo points evals
        (gen_powers (chalGamma sp t0 points evals).1 evals.length)) x := by
    rw [hpow1]
    exact dotProd_powers a x n _ (by omega)
  have hw : m1W s sp t0 evals polys points (vanishing_polynomial points) =
      a * polyEval (m1QR s sp t0 evals polys points (vanishing_polynomial points)).1 x := by
    rw [m1W_def, hpow1, dotProd_powers a x n _ (by omega)]
  have hg20 : s.powers_of_g2.getD 0 0 = b := by
    rw [hpow2, powers_getD_zero b x (p + 1) (by omega)]
  have hg2z : dotProd s.powers_of_g2 (vanishing_polynomial points) =
      b * polyEval (vanishing_polynomial points) x := by
    rw [hpow2]
    exact dotProd_powers b x (p + 1) _ (by rw [vanishing_length]; omega)
  rw [hcmv, hdotR, hRx, hw, hg20, hg2z]
  have h1 := divMod_eval (m1FN s sp t0 evals polys points) (vanishing_polynomial points)
    hZt x
  rw [← m1QR_def] at h1
  rw [pairing, pairing]
  linear_combination (a * b) * h1

theorem m2Commit_value (s : M2Setup F) (a x : F) (n : Nat)
    (hpow : s.powers_of_g1 = polyScale a (gen_powers x n)) (pl : List F)
    (h : pl.length ≤ n) : m2Commit s pl = .ok (a * polyEval pl x) := by
  rw [m2Commit, hpow,
    curve_msm_ok _ _ (by rw [polyScale_length, gen_powers_length]; exact h),
    dotProd_powers a x n pl h]

theorem mapM_m2Commit_ok (s : M2Setup F) (a x : F) (n : Nat)
    (hpow : s.powers_of_g1 = polyScale a (gen_powers x n)) :
    ∀ polys : List (List F), (∀ pl ∈ polys, pl.length ≤ n) →
      List.mapM (fun pl => m2Commit s pl) polys =
        .ok (polys.map (fun pl => a * polyEval pl x))
  | [], _ => rfl
  | pl :: P, h => by
    have hc := m2Commit_value s a x n hpow pl (h pl (by simp))
    have ih := mapM_m2Commit_ok s a x n hpow P (fun r hr => h r (by simp [hr]))
    simp only [List.mapM_cons, hc, ih, List.map_cons]
    rfl

/-- C1 (amended): completeness of open-then-verify.  For every setup of the
shape produced by the constructors (G1 powers a·x^i for i < n; for Method-2
the two G2 points g2 and g2·x; for Method-1 G2 powers b·x^i for i ≤ p with
p < n), every point set S of distinct points with |S| ≤ p, every NONEMPTY
list of at most n polynomials each with at most n coefficients, the honest
evaluation table E[i][k] = polys_i(s_k), and the commitments produced by
commit: running open and then verify with two transcripts initialised to
the same state returns Ok(true), for both method2::Setup and
m1_blst::M1NoPrecomp.  (The claim as frozen also covers the empty
polynomial list, on which open returns Err(NoPolynomialsGiven) instead —
see the counterexample — and the polynomial-count bound is the
linear_combination contract of the spec.) -/
theorem C1_open_then_verify_completeness {σ : Type} (sp : Sponge σ F) (t0 : σ)
    (a b1 b2 x : F) (n p : Nat) (s2 : M2Setup F) (s1 : M1NoPrecomp F)
    (points : List F) (polys evals : List (List F)) (commits : List F)
    (hpow : s2.powers_of_g1 = polyScale a (gen_powers x n))
    (hg2 : s2.g2 = b1) (hg2x : s2.g2x = b1 * x)
    (hpow1 : s1.powers_of_g1 = polyScale a (gen_powers x n))
    (hpow2 : s1.powers_of_g2 = polyScale b2 (gen_powers x (p + 1)))
    (hevals : evals = honestEvals polys points)
    (hcommits : List.mapM (fun pl => m2Commit s2 pl) polys = .ok commits)
    (hnd : points.Nodup) (hne : polys ≠ [])
    (ht : polys.length ≤ n) (hlen : ∀ pl ∈ polys, pl.length ≤ n)
    (hm : points.length ≤ p) (hp : p < n) :
    m2OpenThenVerify s2 sp t0 commits evals polys points = .ok true ∧
    m1OpenThenVerify s1 sp t0 commits evals polys points = .ok true := by
  have hcm : commits = polys.map (fun pl => a * polyEval pl x) := by
    rw [mapM_m2Commit_ok s2 a x n hpow polys hlen] at hcommits
    exact (Except.ok.inj hcommits).symm
  exact ⟨m2_completeness_core sp t0 a b1 x n s2 points polys evals commits hpow hg2 hg2x
      hevals hcm hnd hne ht hlen (by omega),
    m1_completeness_core sp t0 a b2 x n p s1 points polys evals commits hpow1 hpow2
      hevals hcm hnd hne ht hlen hm hp⟩

/-- Counterexample to C1 as frozen: with an empty polynomial list (a list
whose members all trivially satisfy the claimed bounds, with an empty
point set and the vacuously honest empty evaluation table), open-then-
verify returns Err(NoPolynomialsGiven) rather than Ok(true), for both
schemes. -/
theorem C1_counterexample_empty_polys :
    m2OpenThenVerify (⟨[1, 2], 1, 2⟩ : M2Setup (ZMod 5)) unitSponge () [] [] [] [] =
      .error .noPolynomialsGiven ∧
    m1OpenThenVerify (⟨[1, 2], [1, 2]⟩ : M1NoPrecomp (ZMod 5)) unitSponge () [] [] [] [] =
      .error .noPolynomialsGiven ∧
    (Except.error Error.noPolynomialsGiven ≠ (Except.ok true : Except Error Bool)) :=
  ⟨by decide, by decide, by decide⟩

/-- Witness for the amended C1 at a concrete instance over the
five-element field: one polynomial, one point, honest evaluations and
commitments; both schemes accept. -/
theorem C1_witness :
    (([(3 : ZMod 5)].Nodup) ∧ (([[1]] : List (List (ZMod 5))) ≠ []) ∧
      (List.mapM (fun pl => m2Commit (⟨[1, 2], 1, 2⟩ : M2Setup (ZMod 5)) pl) [[1]] =
        .ok [1]) ∧
      (([[1]] : List (List (ZMod 5))) = honestEvals [[1]] [3])) ∧
    m2OpenThenVerify (⟨[1, 2], 1, 2⟩ : M2Setup (ZMod 5)) unitSponge () [1] [[1]] [[1]] [3] =
      .ok true ∧
    m1OpenThenVerify (⟨[1, 2], [1, 2]⟩ : M1NoPrecomp (ZMod 5)) unitSponge () [1] [[1]] [[1]]
      [3] = .ok true := by
  have h := C1_open_then_verify_completeness unitSponge () 1 1 1 2 2 1
    (⟨[1, 2], 1, 2⟩ : M2Setup (ZMod 5)) (⟨[1, 2], [1, 2]⟩ : M1NoPrecomp (ZMod 5))
    [3] [[1]] [[1]] [1]
    (by decide) (by decide) (by decide) (by decide) (by decide) (by decide)
    (by decide) (by decide) (by decide) (by decide) (by decide) (by decide) (by decide)
  exact ⟨⟨by decide, by decide, by decide, by decide⟩, h.1, h.2⟩

/-- C2 (amended): in Method-2's open, whenever the division of
L(X) = F(X) - gamma_r_z - h(X)·Z_S(z) by (X - z) leaves a non-zero
remainder, the prover still returns a proof (W1, W2) without error; but
on honest inputs verification does NOT reject: verify returns Ok(true)
(the remainder of that division is irrelevant to the verdict, because the
discarded constant cancels in the pairing check). -/
theorem C2_inexact_division_amended {σ : Type} (sp : Sponge σ F) (t0 : σ)
    (a b x : F) (n : Nat) (s : M2Setup F) (points : List F)
    (polys evals : List (List F)) (commits : List F) (r : List F)
    (hpow : s.powers_of_g1 = polyScale a (gen_powers x n))
    (hg2 : s.g2 = b) (hg2x : s.g2x = b * x)
    (hevals : evals = honestEvals polys points)
    (hcommits : commits = polys.map (fun pl => a * polyEval pl x))
    (hnd : points.Nodup) (hne : polys ≠ [])
    (ht : polys.length ≤ n) (hlen : ∀ pl ∈ polys, pl.length ≤ n) (hn : 1 ≤ n)
    (hrem : m2OpenRemainder s sp t0 evals polys points = .ok r)
    (hrnz : trim r ≠ []) :
    m2Open s sp t0 evals polys points =
      .ok ((m2W1 s sp t0 evals polys points, m2W2 s sp t0 evals polys points),
        (m2ChalZ s sp t0 evals polys points).2) ∧
    m2OpenThenVerify s sp t0 commits evals polys points = .ok true := by
  have hplen : s.powers_of_g1.length = n := by
    rw [hpow, polyScale_length, gen_powers_length]
  have hZt := trim_vanishing_ne_nil (F := F) points
  have hFNlen : (m2FN s sp t0 evals polys points).length ≤ n := by
    rw [m2FN_def]
    exact linear_combination_length_le n _ polys hlen
  have hq := divMod_quot_length_le (m2FN s sp t0 evals polys points)
    (vanishing_polynomial points) hZt
  rw [← m2QR_def] at hq
  have hq1 : (m2QR s sp t0 evals polys points).1.length ≤ s.powers_of_g1.length := by
    omega
  have hLlen : (m2L s sp t0 evals polys points).length ≤ n := by
    rw [m2L_def, polySub_length, polySub_length, polyScale_length]
    simp only [List.length_cons, List.length_nil]
    omega
  have hlq := divMod_quot_length_le (m2L s sp t0 evals polys points)
    [-(m2ChalZ s sp t0 evals polys points).1, 1]
    (trim_linear_ne_nil (m2ChalZ s sp t0 evals polys points).1)
  rw [← m2LQR_def] at hlq
  have hlq1 : (m2LQR s sp t0 evals polys points).1.length ≤ s.powers_of_g1.length := by
    omega
  exact ⟨m2Open_eq s sp t0 evals polys points hne hq1 hlq1,
    m2_completeness_core sp t0 a b x n s points polys evals commits hpow hg2 hg2x
      hevals hcommits hnd hne ht hlen hn⟩

/-- Counterexample to C2 as frozen: a concrete honest instance over the
five-element field in which the division of L by (X - z) leaves the
non-zero remainder [3], the prover returns the proof (0, 0) without
error, and verify returns Ok(true) — not Ok(false) as claimed. -/
theorem C2_counterexample_remainder :
    m2OpenRemainder (⟨[1, 2], 1, 2⟩ : M2Setup (ZMod 5)) unitSponge () [[1]] [[1]] [0] =
      .ok [3] ∧
    (trim [(3 : ZMod 5)] ≠ []) ∧
    m2Open (⟨[1, 2], 1, 2⟩ : M2Setup (ZMod 5)) unitSponge () [[1]] [[1]] [0] =
      .ok ((0, 0), ()) ∧
    m2Verify (⟨[1, 2], 1, 2⟩ : M2Setup (ZMod 5)) unitSponge () [1] [0] [[1]] (0, 0) =
      .ok true := by
  refine ⟨by decide, by decide, by decide, ?_⟩
  have hotv := m2_completeness_core unitSponge () 1 1 2 2
    (⟨[1, 2], 1, 2⟩ : M2Setup (ZMod 5)) [0] [[1]] [[1]] [1]
    (by decide) (by decide) (by decide) (by decide) (by decide) (by decide) (by decide)
    (by decide) (by decide) (by decide)
  have hop : m2Open (⟨[1, 2], 1, 2⟩ : M2Setup (ZMod 5)) unitSponge () [[1]] [[1]] [0] =
      .ok ((0, 0), ()) := by decide
  simp only [m2OpenThenVerify, hop] at hotv
  exact hotv

/-- Witness for the amended C2 at the same concrete instance: the
remainder is non-zero, yet open succeeds and open-then-verify accepts. -/
theorem C2_witness :
    (m2OpenRemainder (⟨[1, 2], 1, 2⟩ : M2Setup (ZMod 5)) unitSponge () [[1]] [[1]] [0] =
      .ok [3] ∧ trim [(3 : ZMod 5)] ≠ []) ∧
    m2OpenThenVerify (⟨[1, 2], 1, 2⟩ : M2Setup (ZMod 5)) unitSponge () [1] [[1]] [[1]] [0] =
      .ok true := by
  have h := C2_inexact_division_amended unitSponge () 1 1 2 2
    (⟨[1, 2], 1, 2⟩ : M2Setup (ZMod 5)) [0] [[1]] [[1]] [1] [3]
    (by decide) (by decide) (by decide) (by decide) (by decide) (by decide) (by decide)
    (by decide) (by decide) (by decide) (by decide) (by decide)
  exact ⟨⟨by decide, by decide⟩, h.2⟩

theorem polyEval_lagRow (pts : List F) (row : List F) (z : F) :
    polyEval (lagRow pts row) z =
      ∑ k in Finset.range pts.length,
        row.getD k 0 * lagDenomInv pts k * polyEval (lagNumer pts k) z := by
  rw [lagRow, foldl_polyAdd_map, polyEval_foldl_polyAdd, List.map_map]
  have hfun : (fun q => polyEval q z) ∘
      (fun k => polyScale (row.getD k 0 * lagDenomInv pts k) (lagNumer pts k)) =
      fun k => row.getD k 0 * lagDenomInv pts k * polyEval (lagNumer pts k) z := by
    funext k
    show polyEval (polyScale _ _) z = _
    rw [polyEval_polyScale]
  rw [hfun, sum_map_range]
  simp [polyEval]

theorem map_polyEval_zipWith (z : F) (h : F → List F → List F) :
    ∀ (l1 : List F) (l2 : List (List F)),
      (List.zipWith (fun a bb => h a bb) l1 l2).map (fun q => polyEval q z) =
        List.zipWith (fun a bb => polyEval (h a bb) z) l1 l2
  | [], _ => by simp
  | a :: l1, [] => by simp
  | a :: l1, bb :: l2 => by
    rw [zipWith_cons_cons_eq, List.map_cons, zipWith_cons_cons_eq,
      map_polyEval_zipWith z h l1 l2]

theorem polyEval_specInterp (pts : List F) (z : F) (gammas : List F)
    (evals : List (List F)) :
    polyEval (specGammaWeightedInterp pts evals gammas) z =
      (List.zipWith (fun g row => g * polyEval (lagRow pts row) z) gammas evals).sum := by
  rw [specGammaWeightedInterp, polyEval_foldl_polyAdd, polyEval_nil, zero_add,
    map_polyEval_zipWith z (fun g row => polyScale g (lagRow pts row))]
  have hfe : (fun (a : F) (bb : List F) => polyEval (polyScale a (lagRow pts bb)) z) =
      fun g row => g * polyEval (lagRow pts row) z := by
    funext g row
    rw [polyEval_polyScale]
  rw [hfe]

theorem zipWith_sum_finset_swap (m : Nat) (f : F → List F → Nat → F) :
    ∀ (gammas : List F) (evals : List (List F)),
      (List.zipWith (fun g row => ∑ k in Finset.range m, f g row k) gammas evals).sum =
        ∑ k in Finset.range m, (List.zipWith (fun g row => f g row k) gammas evals).sum
  | [], _ => by simp
  | g :: gs, [] => by simp
  | g :: gs, row :: rest => by
    rw [zipWith_cons_cons_eq, List.sum_cons, zipWith_sum_finset_swap m f gs rest,
      ← Finset.sum_add_distrib]
    apply Finset.sum_congr rfl
    intro k _
    rw [zipWith_cons_cons_eq, List.sum_cons]

theorem zipWith_sum_mul (c : F) (f : F → List F → F) :
    ∀ (l1 : List F) (l2 : List (List F)),
      (List.zipWith f l1 l2).sum * c = (List.zipWith (fun a bb => f a bb * c) l1 l2).sum
  | [], _ => by simp
  | a :: l1, [] => by simp
  | a :: l1, bb :: l2 => by
    rw [zipWith_cons_cons_eq, zipWith_cons_cons_eq, List.sum_cons, List.sum_cons,
      ← zipWith_sum_mul c f l1 l2]
    ring

theorem lagrangeCombo_eq_specInterp_eval (pts : List F) (evals : List (List F))
    (gammas : List F) (z : F) :
    polyEval (lagrangeCombo pts evals gammas) z =
      polyEval (specGammaWeightedInterp pts evals gammas) z := by
  rw [polyEval_lagrangeCombo, polyEval_specInterp]
  have h1 : (fun (g : F) (row : List F) => g * polyEval (lagRow pts row) z) =
      fun g row => ∑ k in Finset.range pts.length,
        g * (row.getD k 0 * lagDenomInv pts k * polyEval (lagNumer pts k) z) := by
    funext g row
    rw [polyEval_lagRow, Finset.mul_sum]
  rw [h1, zipWith_sum_finset_swap]
  apply Finset.sum_congr rfl
  intro k _
  rw [mul_assoc, zipWith_sum_mul (lagDenomInv pts k * polyEval (lagNumer pts k) z)
    (fun g row => g * row.getD k 0) gammas evals]
  have hfe : (fun (a : F) (bb : List F) =>
      a * bb.getD k 0 * (lagDenomInv pts k * polyEval (lagNumer pts k) z)) =
      fun g row => g * (row.getD k 0 * lagDenomInv pts k * polyEval (lagNumer pts k) z) := by
    funext g row
    ring
  rw [hfe]

/-- C3: for well-formed inputs (non-empty evaluation table, every row as
long as the point set, at least as many commitments as rows), Method-2
verify returns Ok(b) where b is precisely the decision of the pairing
equation e(sum_i gamma^i C_i - R(z)·[1]_1 - Z_S(z)·W1, [1]_2) =
e(W2, [x]_2 - z·[1]_2), with gamma and z the two transcript challenges
(gamma after appending S and E, z after additionally appending W1) and R
the gamma-weighted Lagrange interpolation of the evaluation rows (the
scalar-weighted sum of the per-row interpolations, written spec-side as
specGammaWeightedInterp) evaluated at z. -/
theorem C3_verify_pairing_equation {σ : Type} (sp : Sponge σ F) (t0 : σ)
    (s : M2Setup F) (commits : List F) (points : List F) (evals : List (List F))
    (pf : M2Proof F) (hne : evals ≠ [])
    (hrows : ∀ r ∈ evals, r.length = points.length)
    (hcm : evals.length ≤ commits.length) :
    m2Verify s sp t0 commits points evals pf =
      .ok (decide (pairing
        (dotProd commits (gen_powers (chalGamma sp t0 points evals).1 evals.length) -
          s.powers_of_g1.getD 0 0 *
            polyEval (specGammaWeightedInterp points evals
              (gen_powers (chalGamma sp t0 points evals).1 evals.length))
              (m2VZ sp t0 points evals pf.1).1 -
          pf.1 * polyEval (vanishing_polynomial points) (m2VZ sp t0 points evals pf.1).1)
        s.g2 =
        pairing pf.2 (s.g2x - s.g2 * (m2VZ sp t0 points evals pf.1).1))) := by
  rw [m2Verify_eq s sp t0 commits points evals pf hne hrows hcm,
    lagrangeCombo_eq_specInterp_eval]

/-- Witness for C3 on a concrete instance over the five-element field. -/
theorem C3_witness :
    ((([[1]] : List (List (ZMod 5))) ≠ []) ∧
      (∀ r ∈ ([[1]] : List (List (ZMod 5))), r.length = [(0 : ZMod 5)].length) ∧
      ([[(1 : ZMod 5)]].length ≤ [(1 : ZMod 5)].length)) ∧
    m2Verify (⟨[1, 2], 1, 2⟩ : M2Setup (ZMod 5)) unitSponge () [1] [0] [[1]] (0, 0) =
      .ok (decide (pairing
        (dotProd [1] (gen_powers (chalGamma unitSponge () [0] [[1]]).1 [[1]].length) -
          ([1, 2] : List (ZMod 5)).getD 0 0 *
            polyEval (specGammaWeightedInterp [0] [[1]]
              (gen_powers (chalGamma unitSponge () [0] [[1]]).1 [[1]].length))
              (m2VZ unitSponge () [0] [[1]] ((0, 0) : M2Proof (ZMod 5)).1).1 -
          ((0, 0) : M2Proof (ZMod 5)).1 * polyEval (vanishing_polynomial [0])
            (m2VZ unitSponge () [0] [[1]] ((0, 0) : M2Proof (ZMod 5)).1).1)
        (1 : ZMod 5) =
        pairing ((0, 0) : M2Proof (ZMod 5)).2
          ((2 : ZMod 5) - 1 * (m2VZ unitSponge () [0] [[1]]
            ((0, 0) : M2Proof (ZMod 5)).1).1))) :=
  ⟨⟨by decide, by decide, by decide⟩,
    C3_verify_pairing_equation unitSponge () (⟨[1, 2], 1, 2⟩ : M2Setup (ZMod 5)) [1] [0]
      [[1]] (0, 0) (by decide) (by decide) (by decide)⟩

/-- C4 (amended): Setup::new samples the group generators from the rng
rather than using the library's standard generator: for every rng, the
produced g2 is the third randomness draw (E::G2::rand(rng)), g2x is that
draw times the sampled secret x (the first draw), and the G1 powers are
the powers of x scaled by the rng-sampled G1 generator (the second
draw). -/
theorem C4_generators_randomly_sampled (max_degree : Nat) (rng : Rng F) :
    (M2Setup.new max_degree rng).1.g2 = rng.stream (rng.idx + 2) ∧
    (M2Setup.new max_degree rng).1.g2x =
      rng.stream (rng.idx + 2) * rng.stream rng.idx ∧
    (M2Setup.new max_degree rng).1.powers_of_g1 =
      polyScale (rng.stream (rng.idx + 1))
        (gen_powers (rng.stream rng.idx) (max_degree + 1)) :=
  ⟨rfl, rfl, rfl⟩

/-- Counterexample to C4 as frozen: for the concrete randomness stream
i ↦ i + 2 over the five-element field, method2 Setup::new produces
g2 = 4 and powers_of_g1[0] = 3, neither of which is the standard
generator (discrete log 1). -/
theorem C4_counterexample :
    (M2Setup.new 1 cRng).1.g2 ≠ (standard_generator : ZMod 5) ∧
    (M2Setup.new 1 cRng).1.powers_of_g1.getD 0 0 ≠ (standard_generator : ZMod 5) :=
  ⟨by decide, by decide⟩

/-- C5: generating gamma powers to the full setup length versus only
t = |polys| powers is equivalent: the length-n power sequence restricted
to its first t entries is the length-t sequence, linear_combination sees
only the first t powers, and an opener generating only t powers returns
a bit-identical result to the current Method-1 opener. -/
theorem C5_gamma_powers_refinement {σ : Type} (sp : Sponge σ F) (t0 : σ)
    (s : M1NoPrecomp F) (evals polys : List (List F)) (points : List F)
    (vp : List F) (gamma : F) (t n : Nat) (htn : t ≤ n) (hpt : polys.length = t)
    (hsl : polys.length ≤ s.powers_of_g1.length) :
    (gen_powers gamma n).take t = gen_powers gamma t ∧
    linear_combination polys (gen_powers gamma n) =
      linear_combination polys (gen_powers gamma t) ∧
    m1OpenTruncatedGammas s sp t0 evals polys points vp =
      m1OpenWithVanishingPoly s sp t0 evals polys points vp := by
  refine ⟨gen_powers_take gamma n t htn, ?_, ?_⟩
  · cases polys with
    | nil => rfl
    | cons p0 ps =>
      rw [linear_combination_some _ (by simp), linear_combination_some _ (by simp),
        zipWith_gen_powers_truncate polyScale gamma (p0 :: ps) n (by omega), hpt]
  · cases polys with
    | nil => rfl
    | cons p0 ps =>
      have hlc : ∀ g : F, linear_combination (p0 :: ps)
          (gen_powers g s.powers_of_g1.length) =
          linear_combination (p0 :: ps) (gen_powers g (p0 :: ps).length) := by
        intro g
        rw [linear_combination_some _ (by simp), linear_combination_some _ (by simp),
          zipWith_gen_powers_truncate polyScale g (p0 :: ps) s.powers_of_g1.length hsl]
      simp only [m1OpenTruncatedGammas, m1OpenWithVanishingPoly, hlc]

/-- Witness for C5 on a concrete instance over the five-element field. -/
theorem C5_witness :
    ((1 : Nat) ≤ 2 ∧ ([[(1 : ZMod 5)]].length = 1) ∧
      ([[(1 : ZMod 5)]].length ≤ ([1, 2] : List (ZMod 5)).length)) ∧
    (gen_powers (2 : ZMod 5) 2).take 1 = gen_powers (2 : ZMod 5) 1 ∧
    linear_combination [[(1 : ZMod 5)]] (gen_powers 2 2) =
      linear_combination [[(1 : ZMod 5)]] (gen_powers 2 1) ∧
    m1OpenTruncatedGammas (⟨[1, 2], [1, 2]⟩ : M1NoPrecomp (ZMod 5)) unitSponge ()
      [[1]] [[1]] [0] [0, 1] =
      m1OpenWithVanishingPoly (⟨[1, 2], [1, 2]⟩ : M1NoPrecomp (ZMod 5)) unitSponge ()
        [[1]] [[1]] [0] [0, 1] := by
  have h := C5_gamma_powers_refinement unitSponge ()
    (⟨[1, 2], [1, 2]⟩ : M1NoPrecomp (ZMod 5)) [[1]] [[1]] [0] [0, 1] 2 1 2
    (by decide) (by decide) (by decide)
  exact ⟨⟨by decide, by decide, by decide⟩, h.1, h.2.1, h.2.2⟩

/-- C6: converting a Method-1 setup into a Method-2 setup fails with
NotEnoughG2Powers exactly when there are fewer than two G2 powers; on
success the G1 powers are carried over unchanged and g2, g2x are the
first two G2 powers. -/
theorem C6_try_from (v : Method1Setup F) :
    (m2TryFrom v = .error .notEnoughG2Powers ↔ v.powers_of_g2.length < 2) ∧
    (∀ s2 : M2Setup F, m2TryFrom v = .ok s2 →
      s2.powers_of_g1 = v.powers_of_g1 ∧ s2.g2 = v.powers_of_g2.getD 0 0 ∧
        s2.g2x = v.powers_of_g2.getD 1 0) := by
  constructor
  · constructor
    · intro h
      by_contra hlen
      rw [m2TryFrom, if_neg hlen] at h
      exact absurd h (by simp)
    · intro hlen
      rw [m2TryFrom, if_pos hlen]
  · intro s2 h
    by_cases hlen : v.powers_of_g2.length < 2
    · rw [m2TryFrom, if_pos hlen] at h
      exact absurd h (by simp)
    · rw [m2TryFrom, if_neg hlen] at h
      have h2 := Except.ok.inj h
      rw [← h2]
      exact ⟨rfl, rfl, rfl⟩

/-- Witness for C6 on a concrete Method-1 setup with two G2 powers. -/
theorem C6_witness :
    (m2TryFrom (⟨[2], [3, 4]⟩ : Method1Setup (ZMod 5)) =
      .ok (⟨[2], 3, 4⟩ : M2Setup (ZMod 5))) ∧
    ((⟨[2], 3, 4⟩ : M2Setup (ZMod 5)).powers_of_g1 =
        (⟨[2], [3, 4]⟩ : Method1Setup (ZMod 5)).powers_of_g1 ∧
      (⟨[2], 3, 4⟩ : M2Setup (ZMod 5)).g2 =
        (⟨[2], [3, 4]⟩ : Method1Setup (ZMod 5)).powers_of_g2.getD 0 0 ∧
      (⟨[2], 3, 4⟩ : M2Setup (ZMod 5)).g2x =
        (⟨[2], [3, 4]⟩ : Method1Setup (ZMod 5)).powers_of_g2.getD 1 0) :=
  ⟨by decide, (C6_try_from (⟨[2], [3, 4]⟩ : Method1Setup (ZMod 5))).2
    (⟨[2], 3, 4⟩ : M2Setup (ZMod 5)) (by decide)⟩

/-- C7: M1NoPrecomp commit fails with
PolynomialTooLarge (n_coeffs = |poly|, expected_max = n) exactly when the
polynomial has more coefficients than there are G1 powers, and otherwise
returns the MSM of the G1 powers with the coefficients. -/
theorem C7_commit_bounds (s : M1NoPrecomp F) (poly : List F) :
    (s.powers_of_g1.length < poly.length →
      m1Commit s poly = .error (.polynomialTooLarge poly.length s.powers_of_g1.length)) ∧
    (poly.length ≤ s.powers_of_g1.length →
      m1Commit s poly = .ok (dotProd s.powers_of_g1 poly)) := by
  constructor
  · intro h
    simp only [m1Commit, prep_scalars, g1_msm]
    rw [if_pos h]
  · intro h
    simp only [m1Commit, prep_scalars, g1_msm]
    rw [if_neg (by omega)]

/-- Witness for C7: a commit that is too large errors with the exact
payload, and a small commit returns the MSM value. -/
theorem C7_witness :
    (([1, 2] : List (ZMod 5)).length < ([1, 1, 1] : List (ZMod 5)).length ∧
      m1Commit (⟨[1, 2], [1]⟩ : M1NoPrecomp (ZMod 5)) [1, 1, 1] =
        .error (.polynomialTooLarge 3 2)) ∧
    (([1] : List (ZMod 5)).length ≤ ([1, 2] : List (ZMod 5)).length ∧
      m1Commit (⟨[1, 2], [1]⟩ : M1NoPrecomp (ZMod 5)) [1] =
        .ok (dotProd [1, 2] [1])) :=
  ⟨⟨by decide, (C7_commit_bounds (⟨[1, 2], [1]⟩ : M1NoPrecomp (ZMod 5)) [1, 1, 1]).1
      (by decide)⟩,
    ⟨by decide, (C7_commit_bounds (⟨[1, 2], [1]⟩ : M1NoPrecomp (ZMod 5)) [1]).2
      (by decide)⟩⟩

/-- C8: calling open with an empty list of polynomials returns
Err(NoPolynomialsGiven), for every setup, transcript, point set and
evaluation table, in both Method-2 and Method-1. -/
theorem C8_empty_polys_error {σ : Type} (sp : Sponge σ F) (t0 : σ)
    (s2 : M2Setup F) (s1 : M1NoPrecomp F) (evals : List (List F)) (points : List F) :
    m2Open s2 sp t0 evals [] points = .error .noPolynomialsGiven ∧
    m1Open s1 sp t0 evals [] points = .error .noPolynomialsGiven :=
  ⟨rfl, rfl⟩

/-- C9: open and verify are deterministic pure functions of the setup,
the initial transcript state and the inputs; two runs from equal initial
transcript states return identical results (the embedded signatures,
like the source ones, consume no randomness). -/
theorem C9_determinism {σ : Type} (sp : Sponge σ F) (t1 t2 : σ)
    (s2 : M2Setup F) (s1 : M1NoPrecomp F) (commits : List F)
    (evals polys : List (List F)) (points : List F) (pf2 : M2Proof F) (pf1 : F)
    (h : t1 = t2) :
    m2Open s2 sp t1 evals polys points = m2Open s2 sp t2 evals polys points ∧
    m2Verify s2 sp t1 commits points evals pf2 =
      m2Verify s2 sp t2 commits points evals pf2 ∧
    m1Open s1 sp t1 evals polys points = m1Open s1 sp t2 evals polys points ∧
    m1Verify s1 sp t1 commits points evals pf1 =
      m1Verify s1 sp t2 commits points evals pf1 := by
  subst h
  exact ⟨rfl, rfl, rfl, rfl⟩

/-- Witness for C9 on concrete inputs with equal initial transcript
states. -/
theorem C9_witness :
    (() = ()) ∧
    m2Open (⟨[1, 2], 1, 2⟩ : M2Setup (ZMod 5)) unitSponge () [[1]] [[1]] [0] =
      m2Open (⟨[1, 2], 1, 2⟩ : M2Setup (ZMod 5)) unitSponge () [[1]] [[1]] [0] := by
  have h := C9_determinism unitSponge () () (⟨[1, 2], 1, 2⟩ : M2Setup (ZMod 5))
    (⟨[1, 2], [1, 2]⟩ : M1NoPrecomp (ZMod 5)) [1] [[1]] [[1]] [0] (0, 0) 0 rfl
  exact ⟨rfl, h.1⟩

/-- C10: M1NoPrecomp::new panics (modelled as none) exactly when the
effective point bound plus one exceeds max_coeffs; with max_pts = None it
always panics (the default bound is max_coeffs + 1); it returns Ok only
for max_pts = Some p with p + 1 ≤ max_coeffs. -/
theorem C10_new_oob_panic (max_coeffs : Nat) (max_pts : Option Nat) (rng : Rng F) :
    (m1New max_coeffs max_pts rng = none ↔
      max_coeffs < max_pts.getD (max_coeffs + 1) + 1) ∧
    (m1New max_coeffs none rng = none) ∧
    (∀ res, m1New max_coeffs max_pts rng = some res →
      ∃ p, max_pts = some p ∧ p + 1 ≤ max_coeffs) := by
  have hbody : ∀ mp : Option Nat, m1New max_coeffs mp rng =
      if mp.getD (max_coeffs + 1) + 1 ≤ max_coeffs then
        some (⟨(gen_curve_powers (gen_powers (rng.sample.1) max_coeffs) rng.sample.2).1,
          (gen_curve_powers ((gen_powers (rng.sample.1) max_coeffs).take
            (mp.getD (max_coeffs + 1) + 1))
            (gen_curve_powers (gen_powers (rng.sample.1) max_coeffs) rng.sample.2).2).1⟩,
          (gen_curve_powers ((gen_powers (rng.sample.1) max_coeffs).take
            (mp.getD (max_coeffs + 1) + 1))
            (gen_curve_powers (gen_powers (rng.sample.1) max_coeffs) rng.sample.2).2).2) else
        none := by
    intro mp
    rfl
  refine ⟨⟨?_, ?_⟩, ?_, ?_⟩
  · intro h
    by_contra hlt
    rw [hbody max_pts, if_pos (by omega)] at h
    exact absurd h (by simp)
  · intro hlt
    rw [hbody max_pts, if_neg (by omega)]
  · rw [hbody none, if_neg (by simp only [Option.getD_none]; omega)]
  · intro res h
    cases max_pts with
    | none =>
      rw [hbody none, if_neg (by simp only [Option.getD_none]; omega)] at h
      exact absurd h (by simp)
    | some p =>
      refine ⟨p, rfl, ?_⟩
      by_contra hgt
      rw [hbody (some p), if_neg (by simp only [Option.getD_some]; omega)] at h
      exact absurd h (by simp)

/-- Witness for C10: a point bound too large for the coefficient bound
makes new panic (none). -/
theorem C10_witness :
    ((3 : Nat) < (some 4).getD (3 + 1) + 1) ∧
    m1New (F := ZMod 5) 3 (some 4) cRng = none :=
  ⟨by decide, (C10_new_oob_panic 3 (some 4) cRng).1.mpr (by decide)⟩

end PolyMultiProof
